import Mathlib

/-!
# Verification of the semantic chunking core (`core/helpers/semantic_chunker.py`,
`core/helpers/html_cleaner.py`)

Shallow embedding of the text-processing core of the repository.  Strings are
modelled as `List Char`; Python's `str.strip()` is modelled over the ASCII
whitespace characters (`" \t\n\r\x0b\x0c"`), which is the fragment exercised by
the pipeline.  All definitions are structurally recursive so that concrete
inputs evaluate inside the kernel.
-/

set_option maxRecDepth 10000

/-- ASCII fragment of Python's whitespace test used by `str.strip()` / regex `\s`. -/
def isPySpace (c : Char) : Bool :=
  c = ' ' || c = '\t' || c = '\n' || c = '\r' || c = '\x0b' || c = '\x0c'

/-- Python `str.strip()`: drop leading and trailing whitespace. -/
def pyStrip (s : List Char) : List Char :=
  ((s.dropWhile isPySpace).reverse.dropWhile isPySpace).reverse

/-- Cons a character onto the first piece of a non-empty piece list. -/
def consHead (c : Char) : List (List Char) → List (List Char)
  | h :: t => (c :: h) :: t
  | [] => [[c]]

/-- Python `text.split("\n")`. -/
def splitLines : List Char → List (List Char)
  | [] => [[]]
  | '\n' :: rest => [] :: splitLines rest
  | c :: rest => consHead c (splitLines rest)

/-- Python `text.split("\n\n")`. -/
def splitNlNl : List Char → List (List Char)
  | '\n' :: '\n' :: rest => [] :: splitNlNl rest
  | c :: rest => consHead c (splitNlNl rest)
  | [] => [[]]

/-- Does `prev` end a sentence for the regex `(?<=[.!?])\s+`? -/
def isSentEnd (c : Char) : Bool :=
  c = '.' || c = '!' || c = '?'

/-- Scanner for Python `re.split(r"(?<=[.!?])\s+", text)`.
`inRun = true` means we are inside a whitespace separator run being consumed.
`prev` is the previously scanned character (lookbehind). -/
def goSent : Bool → Char → List Char → List (List Char)
  | _, _, [] => [[]]
  | false, prev, c :: rest =>
    if isPySpace c && isSentEnd prev then [] :: goSent true ' ' rest
    else consHead c (goSent false c rest)
  | true, _, c :: rest =>
    if isPySpace c then goSent true ' ' rest
    else consHead c (goSent false c rest)

/-- Python `re.split(r"(?<=[.!?])\s+", text)`; there is no lookbehind at
position 0, hence the dummy non-punctuation previous character. -/
def splitSentences (s : List Char) : List (List Char) :=
  goSent false ' ' s

/-- Python `s.replace(old, new)` (all non-overlapping occurrences, left to
right).  The `Nat` argument is a skip counter for characters already consumed
by a match, making the recursion structural. -/
def replaceAux (old new : List Char) : Nat → List Char → List Char
  | 0, [] => []
  | 0, c :: rest =>
    if old.isPrefixOf (c :: rest) && !old.isEmpty then
      new ++ replaceAux old new (old.length - 1) rest
    else
      c :: replaceAux old new 0 rest
  | _ + 1, [] => []
  | k + 1, _ :: rest => replaceAux old new k rest

/-- Python `s.replace(old, new)`. -/
def replaceSub (old new s : List Char) : List Char :=
  replaceAux old new 0 s

/-- Number of non-overlapping occurrences of `old` found by the same greedy
left-to-right scan that `str.replace` uses. -/
def countSubAux (old : List Char) : Nat → List Char → Nat
  | 0, [] => 0
  | 0, c :: rest =>
    if old.isPrefixOf (c :: rest) && !old.isEmpty then
      countSubAux old (old.length - 1) rest + 1
    else
      countSubAux old 0 rest
  | _ + 1, [] => 0
  | k + 1, _ :: rest => countSubAux old k rest

/-- Occurrence count of `old` in `s` (greedy non-overlapping scan). -/
def countSub (old s : List Char) : Nat :=
  countSubAux old 0 s

/-- Substring test: does `pat` occur (contiguously) inside `s`? -/
def containsSub (pat : List Char) : List Char → Bool
  | [] => pat.isPrefixOf []
  | c :: rest => pat.isPrefixOf (c :: rest) || containsSub pat rest

/-! ## `SemanticChunker._extract_code_blocks`

The Python pattern is ``r"```([^`]*?)```|`([^`\n]+)`"`` applied with `re.sub`
and a callback that appends the matched span to a list and returns a
placeholder.  The scan is left to right; at each position the multiline
alternative is tried first, then the inline one, else the character is
copied. -/

/-- One extracted code span: Python dict
`{"content": ..., "placeholder": ..., "type": "multiline" | "inline"}`. -/
structure CodeBlock where
  content : List Char
  placeholder : List Char
  kind : List Char
  deriving DecidableEq, Repr

/-- Try the alternative ``(three backticks)([^`]*?)(three backticks)`` at the
current position; on success return the inner content and the remainder of the
input after the match. -/
def tryCodeBlock : List Char → Option (List Char × List Char)
  | '`' :: '`' :: '`' :: rest =>
    let content := rest.takeWhile (fun c => c ≠ '`')
    match rest.dropWhile (fun c => c ≠ '`') with
    | '`' :: '`' :: '`' :: rem => some (content, rem)
    | _ => none
  | _ => none

/-- Try the alternative ``(backtick)([^`\n]+)(backtick)`` at the current
position. -/
def tryInline : List Char → Option (List Char × List Char)
  | '`' :: rest =>
    let content := rest.takeWhile (fun c => c ≠ '`' && c ≠ '\n')
    match rest.dropWhile (fun c => c ≠ '`' && c ≠ '\n') with
    | '`' :: rem => if content.isEmpty then none else some (content, rem)
    | _ => none
  | _ => none

/-- `f"__CODE_BLOCK_{n}__"`. -/
def codePh (n : Nat) : List Char :=
  "__CODE_BLOCK_".toList ++ Nat.toDigits 10 n ++ "__".toList

/-- `f"__INLINE_CODE_{n}__"`. -/
def inlinePh (n : Nat) : List Char :=
  "__INLINE_CODE_".toList ++ Nat.toDigits 10 n ++ "__".toList

/-- The scan underlying `re.sub(code_pattern, replace_code_block, text)`.
First `Nat`: skip counter over characters consumed by the current match
(structural recursion device); second `Nat`: `len(code_blocks)` so far, used
to number placeholders (shared across both kinds, as in the Python). -/
def extractAux : Nat → Nat → List Char → List CodeBlock × List Char
  | 0, _, [] => ([], [])
  | 0, n, c :: rest =>
    match tryCodeBlock (c :: rest) with
    | some (content, _) =>
      let ph := codePh n
      let res := extractAux (5 + content.length) (n + 1) rest
      (⟨'`' :: '`' :: '`' :: content ++ ['`', '`', '`'], ph, "multiline".toList⟩ :: res.1,
        ph ++ res.2)
    | none =>
      match tryInline (c :: rest) with
      | some (content, _) =>
        let ph := inlinePh n
        let res := extractAux (1 + content.length) (n + 1) rest
        (⟨'`' :: content ++ ['`'], ph, "inline".toList⟩ :: res.1, ph ++ res.2)
      | none =>
        let res := extractAux 0 n rest
        (res.1, c :: res.2)
  | _ + 1, _, [] => ([], [])
  | k + 1, n, _ :: rest => extractAux k n rest

/-- `SemanticChunker._extract_code_blocks`: returns the code blocks and the
text with placeholders substituted. -/
def extractCodeBlocks (text : List Char) : List CodeBlock × List Char :=
  extractAux 0 0 text

/-- `SemanticChunker._remove_code_blocks` (a direct delegation in the source). -/
def removeCodeBlocks (text : List Char) : List CodeBlock × List Char :=
  extractCodeBlocks text

/-! ## `SemanticChunker._parse_heading_structure` -/

/-- One parsed section.  The Python dict also carries a `children` list that is
always empty and never read; it is omitted here. -/
structure PSection where
  level : Nat
  title : List Char
  content : List Char
  deriving DecidableEq, Repr

/-- Parser state: the flat `sections` list and the optional `current_section`. -/
abbrev ParseState := List PSection × Option PSection

/-- Body of the `for line in lines` loop of `_parse_heading_structure`. -/
def parseStep (st : ParseState) (rawLine : List Char) : ParseState :=
  let line := pyStrip rawLine
  if line.isEmpty then st
  else if "##".toList.isPrefixOf line then
    let secs := match st.2 with
      | some cur => st.1 ++ [cur]
      | none => st.1
    (secs, some ⟨line.count '#', pyStrip (line.dropWhile (fun c => c = '#')),
      line ++ ['\n']⟩)
  else
    match st.2 with
    | some cur => (st.1, some { cur with content := cur.content ++ line ++ ['\n'] })
    | none =>
      match st.1.getLast? with
      | none => ([⟨0, "Introduction".toList, line ++ ['\n']⟩], none)
      | some lastSec =>
        if lastSec.level ≠ 0 then
          (st.1 ++ [⟨0, "Introduction".toList, line ++ ['\n']⟩], none)
        else
          (st.1.dropLast ++
            [{ lastSec with content := lastSec.content ++ line ++ ['\n'] }], none)

/-- `SemanticChunker._parse_heading_structure`. -/
def parseHeadingStructure (text : List Char) : List PSection :=
  let st := (splitLines text).foldl parseStep ([], none)
  match st.2 with
  | some cur => st.1 ++ [cur]
  | none => st.1

/-! ## Per-section chunking -/

/-- The paragraph-packing loop of `_chunk_by_paragraphs`: first argument is the
remaining paragraphs, second the running `current_chunk`. -/
def paraLoop (maxSize : Nat) : List (List Char) → List Char → List (List Char)
  | [], cur => if cur.isEmpty then [] else [pyStrip cur]
  | p :: ps, cur =>
    if !cur.isEmpty && cur.length + p.length + 2 > maxSize then
      pyStrip cur :: paraLoop maxSize ps p
    else
      paraLoop maxSize ps (if cur.isEmpty then p else cur ++ '\n' :: '\n' :: p)

/-- The sentence-packing loop of `_chunk_by_sentences`. -/
def sentLoop (maxSize : Nat) : List (List Char) → List Char → List (List Char)
  | [], cur => if cur.isEmpty then [] else [pyStrip cur]
  | s :: ss, cur =>
    let s' := pyStrip s
    if s'.isEmpty then sentLoop maxSize ss cur
    else if !cur.isEmpty && cur.length + s'.length + 1 > maxSize then
      pyStrip cur :: sentLoop maxSize ss s'
    else
      sentLoop maxSize ss (if cur.isEmpty then s' else cur ++ ' ' :: s')

/-- `SemanticChunker._chunk_by_sentences`. -/
def chunkBySentences (text : List Char) (maxSize : Nat) : List (List Char) :=
  sentLoop maxSize (splitSentences text) []

/-- `SemanticChunker._chunk_by_paragraphs`. -/
def chunkByParagraphs (text : List Char) (maxSize : Nat) : List (List Char) :=
  let paragraphs := ((splitNlNl text).map pyStrip).filter (fun p => !p.isEmpty)
  let chunks := paraLoop maxSize paragraphs []
  chunks.flatMap (fun c => if c.length > maxSize then chunkBySentences c maxSize else [c])

/-- `SemanticChunker._process_section`. -/
def processSection (s : PSection) : List (List Char) :=
  let content := pyStrip s.content
  if content.isEmpty then []
  else if s.level = 0 then chunkByParagraphs content 1500
  else if s.level = 1 then chunkByParagraphs content 2000
  else if s.level = 2 then
    if content.length ≤ 2000 then [content] else chunkByParagraphs content 1500
  else if s.level = 3 then
    if content.length ≤ 1500 then [content] else chunkByParagraphs content 1200
  else
    if content.length ≤ 1000 then [content] else chunkByParagraphs content 800

/-! ## Code restoration and final validation -/

/-- Restore all placeholders in one chunk (the Python iterates over the
insertion-ordered `code_map` dict, i.e. over `code_blocks` in order). -/
def restoreChunk (blocks : List CodeBlock) (chunk : List Char) : List Char :=
  blocks.foldl (fun ch b => replaceSub b.placeholder b.content ch) chunk

/-- `SemanticChunker._merge_code_blocks`. -/
def mergeCodeBlocks (chunks : List (List Char)) (blocks : List CodeBlock) :
    List (List Char) :=
  if blocks.isEmpty then chunks else chunks.map (restoreChunk blocks)

/-- `SemanticChunker._validate_chunk_sizes`: strip each chunk, drop empty and
under-50-character chunks.  (The over-2000 branch only logs.) -/
def validateChunkSizes : List (List Char) → List (List Char)
  | [] => []
  | c :: cs =>
    let c' := pyStrip c
    if c'.isEmpty then validateChunkSizes cs
    else if c'.length < 50 then validateChunkSizes cs
    else c' :: validateChunkSizes cs

/-- `SemanticChunker.chunk_text`. -/
def chunkText (text : List Char) : List (List Char) :=
  if (pyStrip text).isEmpty then []
  else
    let ex := removeCodeBlocks text
    let sections := parseHeadingStructure ex.2
    let chunks := sections.flatMap processSection
    let chunks2 := mergeCodeBlocks chunks ex.1
    validateChunkSizes chunks2

/-! ## `HTMLCleaner` (`core/helpers/html_cleaner.py`) -/

/-- The accumulator loop of `_normalize_whitespace` building `cleaned_lines`
(accumulated in reverse): keep each stripped non-empty line; keep a blank line
only when the previously kept line was non-blank. -/
def nwLoop : List (List Char) → List (List Char) → List (List Char)
  | [], accRev => accRev.reverse
  | l :: ls, accRev =>
    let cl := pyStrip l
    if !cl.isEmpty then nwLoop ls (cl :: accRev)
    else
      match accRev with
      | last :: _ => if !last.isEmpty then nwLoop ls ([] :: accRev) else nwLoop ls accRev
      | [] => nwLoop ls accRev

/-- Python `"\n".join(lines)`. -/
def joinNl : List (List Char) → List Char
  | [] => []
  | [l] => l
  | l :: ls => l ++ '\n' :: joinNl ls

/-- `re.sub(r"\n{3,}", "\n\n", result)`: collapse each run of three or more
newlines to exactly two.  Mode `true`: skipping the rest of a collapsed run. -/
def collapseNl : Bool → List Char → List Char
  | _, [] => []
  | true, '\n' :: rest => collapseNl true rest
  | true, c :: rest => c :: collapseNl false rest
  | false, '\n' :: '\n' :: '\n' :: rest => '\n' :: '\n' :: collapseNl true rest
  | false, c :: rest => c :: collapseNl false rest

/-- `HTMLCleaner._normalize_whitespace`. -/
def normalizeWhitespace (text : List Char) : List Char :=
  pyStrip (collapseNl false (joinNl (nwLoop (splitLines text) [])))

/-- `re.sub(r"<[^>]+>", "", html)`: remove tag-like spans (a `<`, one or more
non-`>` characters, a `>`).  The `Nat` is a skip counter for a match already
recognised. -/
def stripTags : Nat → List Char → List Char
  | 0, [] => []
  | 0, '<' :: rest =>
    let body := rest.takeWhile (fun c => c ≠ '>')
    match rest.dropWhile (fun c => c ≠ '>') with
    | '>' :: _ =>
      if body.isEmpty then '<' :: stripTags 0 rest
      else stripTags (body.length + 1) rest
    | _ => '<' :: stripTags 0 rest
  | 0, c :: rest => c :: stripTags 0 rest
  | _ + 1, [] => []
  | k + 1, _ :: rest => stripTags k rest

/-- `re.sub(r"\s+", " ", text)`: replace each maximal whitespace run by one
space.  Mode `true`: previous character was part of a run. -/
def collapseWs : Bool → List Char → List Char
  | _, [] => []
  | inRun, c :: rest =>
    if isPySpace c then
      if inRun then collapseWs true rest else ' ' :: collapseWs true rest
    else c :: collapseWs false rest

/-- `HTMLCleaner._fallback_clean`. -/
def fallbackClean (html : List Char) : List Char :=
  pyStrip (collapseWs false (stripTags 0 html))

/-- `HTMLCleaner.clean_html`.  The whole BeautifulSoup try-block (parsing, tag
transforms, `soup.get_text()`) is third-party library behaviour outside this
repository; it is abstracted as a parameter: `bsExtract html = some t` means
the try-block produced text `t`, `none` means it raised and the `except`
branch runs `_fallback_clean`. -/
def cleanHtmlWith (bsExtract : List Char → Option (List Char))
    (html : List Char) : List Char :=
  if (pyStrip html).isEmpty then []
  else
    match bsExtract html with
    | some t => normalizeWhitespace t
    | none => fallbackClean html

/-! ## Basic facts about `pyStrip` -/

theorem dropWhile_ws_head {p : Char → Bool} {l : List Char} {c : Char} {t : List Char}
    (h : l.dropWhile p = c :: t) : p c = false := by
  induction l with
  | nil => simp [List.dropWhile] at h
  | cons a l ih =>
    by_cases hp : p a = true
    · rw [List.dropWhile_cons_of_pos hp] at h; exact ih h
    · rw [List.dropWhile_cons_of_neg hp] at h
      obtain ⟨rfl, -⟩ := List.cons.inj h
      simpa using hp

theorem dropWhile_eq_self_of_head {p : Char → Bool} {c : Char} {l : List Char}
    (h : p c = false) : (c :: l).dropWhile p = c :: l :=
  List.dropWhile_cons_of_neg (by simp [h])

theorem pyStrip_nil : pyStrip [] = [] := rfl

/-- The trailing whitespace flank of `pyStrip`. -/
theorem dropWhile_eq_pyStrip_append (s : List Char) :
    s.dropWhile isPySpace =
      pyStrip s ++ ((s.dropWhile isPySpace).reverse.takeWhile isPySpace).reverse := by
  have hsplit := List.takeWhile_append_dropWhile (p := isPySpace)
    (l := (s.dropWhile isPySpace).reverse)
  have h2 := congrArg List.reverse hsplit
  rw [List.reverse_append] at h2
  simpa [pyStrip] using h2.symm

/-- `pyStrip s` is recovered inside `s` between two all-whitespace flanks. -/
theorem pyStrip_decomp (s : List Char) :
    ∃ pre suf, (∀ c ∈ pre, isPySpace c = true) ∧ (∀ c ∈ suf, isPySpace c = true) ∧
      s = pre ++ pyStrip s ++ suf := by
  refine ⟨s.takeWhile isPySpace, ((s.dropWhile isPySpace).reverse.takeWhile isPySpace).reverse,
    ?_, ?_, ?_⟩
  · intro c hc; exact List.mem_takeWhile_imp hc
  · intro c hc
    rw [List.mem_reverse] at hc
    exact List.mem_takeWhile_imp hc
  · conv_lhs => rw [← List.takeWhile_append_dropWhile (p := isPySpace) (l := s),
      dropWhile_eq_pyStrip_append s]
    rw [List.append_assoc]

theorem pyStrip_head_not_ws {s : List Char} {c : Char} {t : List Char}
    (h : pyStrip s = c :: t) : isPySpace c = false := by
  have hpre : s.dropWhile isPySpace =
      c :: (t ++ ((s.dropWhile isPySpace).reverse.takeWhile isPySpace).reverse) := by
    have := dropWhile_eq_pyStrip_append s
    rw [h] at this
    simpa using this
  exact dropWhile_ws_head hpre

theorem pyStrip_last_not_ws {s : List Char} {c : Char} {t : List Char}
    (h : pyStrip s = t ++ [c]) : isPySpace c = false := by
  unfold pyStrip at h
  have h2 : (s.dropWhile isPySpace).reverse.dropWhile isPySpace = c :: t.reverse := by
    have := congrArg List.reverse h
    simpa using this
  exact dropWhile_ws_head h2

/-- A list whose first and last characters are not whitespace is fixed by
`pyStrip`. -/
theorem pyStrip_eq_self_of_ends {x : List Char}
    (hh : ∀ c t, x = c :: t → isPySpace c = false)
    (hl : ∀ c t, x = t ++ [c] → isPySpace c = false) : pyStrip x = x := by
  cases hx : x with
  | nil => simp [pyStrip_nil]
  | cons c t =>
    unfold pyStrip
    rw [dropWhile_eq_self_of_head (hh c t hx)]
    rcases List.eq_nil_or_concat (c :: t) with h | ⟨t', d, hcat⟩
    · simp at h
    · rw [List.concat_eq_append] at hcat
      have hd : isPySpace d = false := hl d t' (hx ▸ hcat)
      rw [hcat, List.reverse_append]
      simp only [List.reverse_cons, List.reverse_nil, List.nil_append, List.singleton_append]
      rw [dropWhile_eq_self_of_head hd]
      simp

theorem pyStrip_idem (s : List Char) : pyStrip (pyStrip s) = pyStrip s := by
  apply pyStrip_eq_self_of_ends
  · intro c t h; exact pyStrip_head_not_ws h
  · intro c t h; exact pyStrip_last_not_ws h

theorem pyStrip_length_le (s : List Char) : (pyStrip s).length ≤ s.length := by
  obtain ⟨pre, suf, -, -, hdec⟩ := pyStrip_decomp s
  conv_rhs => rw [hdec]
  simp only [List.length_append]
  omega

/-! ## Facts about `validateChunkSizes` -/

theorem mem_validateChunkSizes {l : List (List Char)} {c : List Char}
    (h : c ∈ validateChunkSizes l) : pyStrip c = c ∧ 50 ≤ c.length := by
  induction l with
  | nil => simp [validateChunkSizes] at h
  | cons a l ih =>
    unfold validateChunkSizes at h
    by_cases h1 : (pyStrip a).isEmpty
    · rw [if_pos h1] at h; exact ih h
    · rw [if_neg h1] at h
      by_cases h2 : (pyStrip a).length < 50
      · rw [if_pos h2] at h; exact ih h
      · rw [if_neg h2] at h
        rcases List.mem_cons.mp h with rfl | hmem
        · exact ⟨pyStrip_idem a, by omega⟩
        · exact ih hmem

theorem chunkText_eq_validate (text : List Char) (h : ¬(pyStrip text).isEmpty = true) :
    chunkText text =
      validateChunkSizes
        (mergeCodeBlocks
          ((parseHeadingStructure (removeCodeBlocks text).2).flatMap processSection)
          (removeCodeBlocks text).1) := by
  unfold chunkText
  rw [if_neg h]

theorem mem_chunkText_validated {text c : List Char} (h : c ∈ chunkText text) :
    pyStrip c = c ∧ 50 ≤ c.length := by
  unfold chunkText at h
  by_cases hs : (pyStrip text).isEmpty
  · rw [if_pos hs] at h; simp at h
  · rw [if_neg hs] at h
    exact mem_validateChunkSizes h

/-- **C5.** Every chunk returned by `SemanticChunker.chunk_text` has trimmed
length at least 50 characters; chunks whose trimmed length is below 50 are
dropped by `_validate_chunk_sizes` and never returned.  (The returned chunks
are moreover already stripped, so their trimmed length is their length.) -/
theorem C5_size_floor (text c : List Char) (h : c ∈ chunkText text) :
    50 ≤ (pyStrip c).length ∧ pyStrip c = c := by
  obtain ⟨hfix, hlen⟩ := mem_chunkText_validated h
  refine ⟨?_, hfix⟩
  rw [hfix]
  exact hlen

/-- Witness for C5 at a concrete input producing a concrete chunk. -/
theorem C5_size_floor_witness :
    50 ≤ (pyStrip ("This sentence is certainly longer than fifty characters in total.".toList)).length ∧
      pyStrip ("This sentence is certainly longer than fifty characters in total.".toList) =
        "This sentence is certainly longer than fifty characters in total.".toList :=
  C5_size_floor ("This sentence is certainly longer than fifty characters in total.".toList)
    ("This sentence is certainly longer than fifty characters in total.".toList)
    (by decide)

/-- **C9.** `SemanticChunker.chunk_text` is deterministic: the embedding is a
pure function of the input text (the Python method reads no mutable state:
`self` carries no attributes and the module state is only a logger), so two
invocations on equal input return equal chunk lists. -/
theorem C9_deterministic (text : List Char) : chunkText text = chunkText text := rfl

/-- **C10.** A non-empty (and non-whitespace) input can produce zero chunks:
a single short sentence with no headings yields one candidate chunk of
trimmed length < 50, which `_validate_chunk_sizes` drops, so the public
interface returns the empty list. -/
theorem C10_nonempty_input_empty_output :
    "This is a short sentence.".toList ≠ [] ∧
      pyStrip ("This is a short sentence.".toList) ≠ [] ∧
      chunkText ("This is a short sentence.".toList) = [] := by
  refine ⟨by decide, by decide, by decide⟩

/-- **C7.** Totality / empty-input behaviour: the embedded `clean_html` and
`chunk_text` are total functions (every anomaly inside the BeautifulSoup
try-block, modelled by the oracle `bsExtract` returning `none`, degrades to
`_fallback_clean`), and on empty or whitespace-only input `clean_html`
returns the empty string before any parse is attempted (for every oracle)
while `chunk_text` returns the empty list. -/
theorem C7_total_empty (bsExtract : List Char → Option (List Char)) (s : List Char)
    (h : pyStrip s = []) : cleanHtmlWith bsExtract s = [] ∧ chunkText s = [] := by
  constructor
  · unfold cleanHtmlWith
    rw [if_pos (by simp [h])]
  · unfold chunkText
    rw [if_pos (by simp [h])]

/-- Witness for C7 at the whitespace-only input `"   "` and the
always-raising oracle. -/
theorem C7_total_empty_witness :
    cleanHtmlWith (fun _ => none) ("   ".toList) = [] ∧ chunkText ("   ".toList) = [] :=
  C7_total_empty (fun _ => none) ("   ".toList) (by decide)

/-! ## Claim C1: which lines start a new section -/

/-- **C1 (amended).** During the heading parse, a line whose stripped form
starts with `##` (two `#` characters) starts a new Section: the previous
current section (if any) is appended to the flat list, and the new current
section has `level` equal to the number of `#` characters in the whole
stripped line, `title` equal to the stripped line with its leading `#`
characters removed and then trimmed, and `content` equal to the stripped line
plus a newline.  (A line with a single leading `#`, although it matches
`^#+\s`, is *not* a heading for this parser; see the counterexample.) -/
theorem C1_heading_step (st : ParseState) (rawLine : List Char)
    (h : "##".toList.isPrefixOf (pyStrip rawLine)) :
    parseStep st rawLine =
      ((match st.2 with | some cur => st.1 ++ [cur] | none => st.1),
        some ⟨(pyStrip rawLine).count '#',
          pyStrip ((pyStrip rawLine).dropWhile (fun c => c = '#')),
          pyStrip rawLine ++ ['\n']⟩) := by
  have hne : (pyStrip rawLine).isEmpty = false := by
    cases hps : pyStrip rawLine with
    | nil => rw [hps] at h; simp [List.isPrefixOf] at h
    | cons a t => simp
  simp only [parseStep, hne, Bool.false_eq_true, if_false, h, if_true]

/-- Witness for C1 at a concrete heading line. -/
theorem C1_heading_step_witness :
    parseStep ([], none) ("## Getting Started".toList) =
      ([], some ⟨2, "Getting Started".toList, "## Getting Started\n".toList⟩) := by
  have h := C1_heading_step ([], none) ("## Getting Started".toList) (by decide)
  rw [h]
  decide

/-- **C1 (counterexample).** The input `"# Title\n## Head # one"` refutes the
claim: the line `# Title` matches `^#+\s` but is swept into the level-0
`Introduction` section instead of starting a level-1 section, and the heading
line `## Head # one` gets level 3 (the count of *all* `#` characters), not
the count of its leading `#` characters (2). -/
theorem C1_counterexample :
    parseHeadingStructure ("# Title\n## Head # one".toList) =
      [⟨0, "Introduction".toList, "# Title\n".toList⟩,
       ⟨3, "Head # one".toList, "## Head # one\n".toList⟩] ∧
      (¬ ∃ s ∈ parseHeadingStructure ("# Title\n## Head # one".toList), s.level = 1) := by
  exact ⟨by decide, by decide⟩

/-! ## Decompositions of a string into pieces separated by whitespace spans

All the splitting steps of the chunker (`split("\n")`, `split("\n\n")`, the
sentence regex) separate on whitespace-only spans.  `SplitsInto s ps` says the
pieces `ps`, in order, are `s` with whitespace-only separator spans removed. -/

inductive SplitsInto : List Char → List (List Char) → Prop where
  | single (s : List Char) : SplitsInto s [s]
  | piece (p sep rest : List Char) (ps : List (List Char)) :
      (∀ c ∈ sep, isPySpace c = true) → sep ≠ [] → SplitsInto rest ps →
      SplitsInto (p ++ sep ++ rest) (p :: ps)

theorem SplitsInto.consHead {s : List Char} {ps : List (List Char)} (c : Char)
    (h : SplitsInto s ps) : SplitsInto (c :: s) (consHead c ps) := by
  cases h with
  | single s => exact SplitsInto.single (c :: s)
  | piece p sep rest ps hsep hne hrest =>
    show SplitsInto (c :: (p ++ sep ++ rest)) ((c :: p) :: ps)
    exact SplitsInto.piece (c :: p) sep rest ps hsep hne hrest

theorem SplitsInto.sepFront {s : List Char} {ps : List (List Char)} (c : Char)
    (hc : isPySpace c = true) (h : SplitsInto s ps) : SplitsInto (c :: s) ([] :: ps) := by
  have h2 : SplitsInto ([] ++ [c] ++ s) ([] :: ps) :=
    SplitsInto.piece [] [c] s ps (by intro d hd; rw [List.mem_singleton] at hd; exact hd ▸ hc)
      (by simp) h
  simpa using h2

theorem SplitsInto.ne_nil {s : List Char} {ps : List (List Char)}
    (h : SplitsInto s ps) : ps ≠ [] := by
  cases h <;> simp

theorem SplitsInto.mem_subset {s : List Char} {ps : List (List Char)}
    (h : SplitsInto s ps) {p : List Char} (hp : p ∈ ps) {c : Char} (hc : c ∈ p) :
    c ∈ s := by
  induction h with
  | single s => rw [List.mem_singleton] at hp; exact hp ▸ hc
  | piece q sep rest ps hsep hne hrest ih =>
    rcases List.mem_cons.mp hp with rfl | hp'
    · simp [hc]
    · have := ih hp'
      simp [this]

theorem splitLines_cons_ne {c : Char} {rest : List Char} (h : ¬c = '\n') :
    splitLines (c :: rest) = consHead c (splitLines rest) := by
  rw [splitLines.eq_def]
  split
  · simp_all
  · simp_all
  · rename_i c₁ rest₁ hne₁ heq
    obtain ⟨h1, h2⟩ := List.cons.inj heq
    subst h1; subst h2; rfl

theorem splitsInto_splitLines (s : List Char) : SplitsInto s (splitLines s) := by
  induction s with
  | nil => exact SplitsInto.single []
  | cons c rest ih =>
    by_cases hc : c = '\n'
    · subst hc
      rw [show splitLines ('\n' :: rest) = [] :: splitLines rest from rfl]
      exact ih.sepFront '\n' (by decide)
    · rw [splitLines_cons_ne hc]
      exact ih.consHead c

theorem splitNlNl_cons {c : Char} {rest : List Char}
    (h : ¬(c = '\n' ∧ rest.head? = some '\n')) :
    splitNlNl (c :: rest) = consHead c (splitNlNl rest) := by
  rw [splitNlNl.eq_def]
  split
  · rename_i rest₁ heq
    obtain ⟨h1, h2⟩ := List.cons.inj heq
    exact absurd ⟨h1, by rw [h2]; rfl⟩ h
  · rename_i c₁ rest₁ hne₁ heq
    obtain ⟨h1, h2⟩ := List.cons.inj heq
    subst h1; subst h2; rfl
  · simp_all

theorem splitsInto_splitNlNl (s : List Char) : SplitsInto s (splitNlNl s) := by
  have key : ∀ n s, List.length s ≤ n → SplitsInto s (splitNlNl s) := by
    intro n
    induction n with
    | zero =>
      intro s hs
      have hnil : s = [] := List.eq_nil_of_length_eq_zero (Nat.le_zero.mp hs)
      subst hnil
      exact SplitsInto.single []
    | succ n ih =>
      intro s hs
      cases s with
      | nil => exact SplitsInto.single []
      | cons c rest =>
        by_cases hc : c = '\n'
        · subst hc
          cases rest with
          | nil =>
            rw [show splitNlNl ['\n'] = [['\n']] from rfl]
            exact SplitsInto.single ['\n']
          | cons d rest' =>
            by_cases hd : d = '\n'
            · subst hd
              rw [show splitNlNl ('\n' :: '\n' :: rest') = [] :: splitNlNl rest' from rfl]
              have h1 : SplitsInto rest' (splitNlNl rest') :=
                ih rest' (by simp only [List.length_cons] at hs ⊢; omega)
              have h2 : SplitsInto ([] ++ ['\n', '\n'] ++ rest') ([] :: splitNlNl rest') :=
                SplitsInto.piece [] ['\n', '\n'] rest' (splitNlNl rest') (by decide)
                  (by simp) h1
              simpa using h2
            · rw [splitNlNl_cons (by simp [hd])]
              exact (ih (d :: rest')
                (by simp only [List.length_cons] at hs ⊢; omega)).consHead '\n'
        · rw [splitNlNl_cons (by simp [hc])]
          exact (ih rest (by simp only [List.length_cons] at hs ⊢; omega)).consHead c
  exact key s.length s le_rfl

theorem goSent_splits (s : List Char) :
    (∀ prev, SplitsInto s (goSent false prev s)) ∧
    (∀ prev, ∃ sep rest, (∀ c ∈ sep, isPySpace c = true) ∧ s = sep ++ rest ∧
      SplitsInto rest (goSent true prev s)) := by
  induction s with
  | nil =>
    constructor
    · intro prev; exact SplitsInto.single []
    · intro prev; exact ⟨[], [], by simp, rfl, SplitsInto.single []⟩
  | cons c rest ih =>
    obtain ⟨ihF, ihT⟩ := ih
    constructor
    · intro prev
      by_cases hcond : (isPySpace c && isSentEnd prev) = true
      · rw [show goSent false prev (c :: rest) = [] :: goSent true ' ' rest from by
          simp [goSent, hcond]]
        obtain ⟨sep, rest', hsep, hdecomp, hrest⟩ := ihT ' '
        have hcw : isPySpace c = true := (Bool.and_eq_true _ _ |>.mp hcond).1
        have h2 : SplitsInto ([] ++ (c :: sep) ++ rest') ([] :: goSent true ' ' rest) :=
          SplitsInto.piece [] (c :: sep) rest' _
            (by
              intro d hd
              rcases List.mem_cons.mp hd with rfl | hm
              · exact hcw
              · exact hsep d hm)
            (by simp) hrest
        have h3 : c :: rest = [] ++ (c :: sep) ++ rest' := by rw [hdecomp]; simp
        rw [h3]
        exact h2
      · rw [show goSent false prev (c :: rest) = consHead c (goSent false c rest) from by
          simp [goSent, hcond]]
        exact (ihF c).consHead c
    · intro prev
      by_cases hws : isPySpace c = true
      · rw [show goSent true prev (c :: rest) = goSent true ' ' rest from by
          simp [goSent, hws]]
        obtain ⟨sep, rest', hsep, hdecomp, hrest⟩ := ihT ' '
        refine ⟨c :: sep, rest', ?_, by rw [hdecomp]; simp, hrest⟩
        intro d hd
        rcases List.mem_cons.mp hd with rfl | hm
        · exact hws
        · exact hsep d hm
      · rw [show goSent true prev (c :: rest) = consHead c (goSent false c rest) from by
          simp [goSent, hws]]
        exact ⟨[], c :: rest, by simp, rfl, (ihF c).consHead c⟩

theorem splitsInto_splitSentences (s : List Char) : SplitsInto s (splitSentences s) :=
  (goSent_splits s).1 ' '

/-! ## All-whitespace inputs -/

theorem pyStrip_eq_nil_of_allws {s : List Char} (h : ∀ c ∈ s, isPySpace c = true) :
    pyStrip s = [] := by
  unfold pyStrip
  rw [List.dropWhile_eq_nil_iff.mpr h]
  rfl

theorem allws_of_pyStrip_eq_nil {s : List Char} (h : pyStrip s = []) :
    ∀ c ∈ s, isPySpace c = true := by
  obtain ⟨pre, suf, hpre, hsuf, hdec⟩ := pyStrip_decomp s
  rw [h] at hdec
  intro c hc
  rw [hdec] at hc
  simp only [List.append_nil, List.mem_append] at hc
  rcases hc with h1 | h2
  · exact hpre c h1
  · exact hsuf c h2

theorem foldl_fixed {α β : Type} (f : α → β → α) :
    ∀ (l : List β) (init : α), (∀ st x, x ∈ l → f st x = st) → l.foldl f init = init := by
  intro l
  induction l with
  | nil => intro init h; rfl
  | cons a l ih =>
    intro init h
    rw [List.foldl_cons, h init a (by simp)]
    exact ih init fun st x hx => h st x (List.mem_cons_of_mem a hx)

theorem parseStep_blank {st : ParseState} {l : List Char} (h : pyStrip l = []) :
    parseStep st l = st := by
  simp [parseStep, h]

theorem parseHeadingStructure_allws {text : List Char}
    (h : ∀ c ∈ text, isPySpace c = true) : parseHeadingStructure text = [] := by
  unfold parseHeadingStructure
  have hfold : (splitLines text).foldl parseStep ([], none) = (([], none) : ParseState) := by
    apply foldl_fixed
    intro st l hl
    apply parseStep_blank
    apply pyStrip_eq_nil_of_allws
    intro c hc
    exact h c ((splitsInto_splitLines text).mem_subset hl hc)
  rw [hfold]

theorem tryCodeBlock_noTick {c : Char} {rest : List Char} (hc : ¬c = '`') :
    tryCodeBlock (c :: rest) = none := by
  rw [tryCodeBlock.eq_def]
  split
  · rename_i rest₁ heq
    exact absurd (List.cons.inj heq).1 hc
  · rfl

theorem tryInline_noTick {c : Char} {rest : List Char} (hc : ¬c = '`') :
    tryInline (c :: rest) = none := by
  rw [tryInline.eq_def]
  split
  · rename_i rest₁ heq
    exact absurd (List.cons.inj heq).1 hc
  · rfl

theorem extractAux_noTick (n : Nat) :
    ∀ s : List Char, (∀ c ∈ s, ¬c = '`') → extractAux 0 n s = ([], s) := by
  intro s
  induction s with
  | nil => intro h; rfl
  | cons c rest ih =>
    intro h
    have hc : ¬c = '`' := h c (by simp)
    simp only [extractAux, tryCodeBlock_noTick hc, tryInline_noTick hc]
    rw [ih fun d hd => h d (List.mem_cons_of_mem c hd)]

/-! ## Shape of the pipeline (merge is a per-chunk map, validate a filter) -/

theorem restoreChunk_nil (ch : List Char) : restoreChunk [] ch = ch := rfl

theorem mergeCodeBlocks_eq_map (chunks : List (List Char)) (blocks : List CodeBlock) :
    mergeCodeBlocks chunks blocks = chunks.map (restoreChunk blocks) := by
  unfold mergeCodeBlocks
  by_cases hb : blocks.isEmpty
  · rw [if_pos hb]
    have : blocks = [] := List.isEmpty_iff.mp hb
    subst this
    rw [show restoreChunk [] = id from funext fun ch => rfl, List.map_id]
  · rw [if_neg hb]

theorem validateChunkSizes_eq_filter (l : List (List Char)) :
    validateChunkSizes l = (l.map pyStrip).filter (fun c => decide (50 ≤ c.length)) := by
  induction l with
  | nil => rfl
  | cons a l ih =>
    simp only [validateChunkSizes, List.map_cons, List.filter_cons]
    by_cases h1 : (pyStrip a).isEmpty
    · rw [if_pos h1]
      have : pyStrip a = [] := List.isEmpty_iff.mp h1
      rw [this]
      simpa using ih
    · rw [if_neg h1]
      by_cases h2 : (pyStrip a).length < 50
      · rw [if_pos h2]
        have : (decide (50 ≤ (pyStrip a).length)) = false := by
          simp only [decide_eq_false_iff_not]
          omega
        rw [this]
        simpa using ih
      · rw [if_neg h2]
        have : (decide (50 ≤ (pyStrip a).length)) = true := by
          simp only [decide_eq_true_eq]
          omega
        rw [this]
        simpa using ih

/-- **C6.** Chunks are returned in original document order.  First conjunct:
`chunk_text` is exactly the in-order concatenation, section by section, of the
per-section chunks, each chunk rewritten in place (placeholder restoration)
and then filtered by the size validation.  Second conjunct: the returned list
is a sublist (order-preserving selection) of that in-order concatenation with
each chunk restored and stripped in place, so no chunk is ever re-ordered
relative to its source position. -/
theorem C6_document_order (text : List Char) :
    chunkText text =
      validateChunkSizes
        (((parseHeadingStructure (removeCodeBlocks text).2).flatMap processSection).map
          (restoreChunk (removeCodeBlocks text).1)) ∧
    List.Sublist (chunkText text)
      (((parseHeadingStructure (removeCodeBlocks text).2).flatMap processSection).map
        (fun ch => pyStrip (restoreChunk (removeCodeBlocks text).1 ch))) := by
  have heq : chunkText text =
      validateChunkSizes
        (((parseHeadingStructure (removeCodeBlocks text).2).flatMap processSection).map
          (restoreChunk (removeCodeBlocks text).1)) := by
    by_cases hs : (pyStrip text).isEmpty
    · have hws : ∀ c ∈ text, isPySpace c = true :=
        allws_of_pyStrip_eq_nil (List.isEmpty_iff.mp hs)
      have hnt : ∀ c ∈ text, ¬c = '`' := by
        intro c hc heq
        have := hws c hc
        subst heq
        simp [isPySpace] at this
      have hex : removeCodeBlocks text = ([], text) := extractAux_noTick 0 text hnt
      rw [show chunkText text = [] from by unfold chunkText; rw [if_pos hs], hex]
      rw [parseHeadingStructure_allws hws]
      rfl
    · rw [chunkText_eq_validate text hs, mergeCodeBlocks_eq_map]
  refine ⟨heq, ?_⟩
  rw [heq, validateChunkSizes_eq_filter, List.map_map]
  exact List.filter_sublist _

/-! ## Substring-test toolkit -/

theorem splitLines_ne_nil (s : List Char) : splitLines s ≠ [] := by
  induction s with
  | nil => simp [splitLines]
  | cons c rest ih =>
    by_cases hc : c = '\n'
    · subst hc; simp [splitLines]
    · rw [splitLines_cons_ne hc]
      cases h : splitLines rest with
      | nil => exact absurd h ih
      | cons a t => simp [consHead]

theorem splitLines_no_nl {s : List Char} : ∀ l ∈ splitLines s, '\n' ∉ l := by
  induction s with
  | nil =>
    intro l hl
    rw [show splitLines [] = [[]] from rfl, List.mem_singleton] at hl
    subst hl; simp
  | cons c rest ih =>
    intro l hl
    by_cases hc : c = '\n'
    · subst hc
      rw [show splitLines ('\n' :: rest) = [] :: splitLines rest from rfl] at hl
      rcases List.mem_cons.mp hl with rfl | h
      · simp
      · exact ih l h
    · rw [splitLines_cons_ne hc] at hl
      cases h : splitLines rest with
      | nil => exact absurd h (splitLines_ne_nil rest)
      | cons a t =>
        rw [h] at hl
        rcases List.mem_cons.mp hl with rfl | hmem
        · intro hmem'
          rcases List.mem_cons.mp hmem' with rfl | hin
          · exact hc rfl
          · exact ih a (h ▸ List.mem_cons_self a t) hin
        · exact ih l (h ▸ List.mem_cons_of_mem a hmem)

theorem isPrefixOf_append_right {pat x b : List Char} (h : pat.isPrefixOf x = true) :
    pat.isPrefixOf (x ++ b) = true := by
  rw [List.isPrefixOf_iff_prefix] at h ⊢
  exact h.trans (List.prefix_append x b)

theorem containsSub_append_right {pat x : List Char} (b : List Char)
    (h : containsSub pat x = true) : containsSub pat (x ++ b) = true := by
  induction x with
  | nil =>
    simp only [containsSub] at h
    have : pat = [] := by
      cases pat with
      | nil => rfl
      | cons p ps => simp [List.isPrefixOf] at h
    subst this
    cases b with
    | nil => simp [containsSub]
    | cons c t => simp [containsSub, List.isPrefixOf]
  | cons c x' ih =>
    simp only [containsSub, Bool.or_eq_true] at h ⊢
    rcases h with h | h
    · exact Or.inl (isPrefixOf_append_right h)
    · exact Or.inr (ih h)

theorem containsSub_append_left {pat x : List Char} (a : List Char)
    (h : containsSub pat x = true) : containsSub pat (a ++ x) = true := by
  induction a with
  | nil => simpa using h
  | cons c a' ih =>
    simp only [List.cons_append, containsSub, Bool.or_eq_true]
    exact Or.inr ih

/-- Inside a sandwich, a substring of the middle is a substring of the whole. -/
theorem containsSub_sandwich {pat x : List Char} (a b : List Char)
    (h : containsSub pat x = true) : containsSub pat (a ++ x ++ b) = true := by
  rw [List.append_assoc]
  exact containsSub_append_left a (containsSub_append_right b h)

/-- A pattern that begins with a newline cannot start inside a newline-free
stretch: the stretch is transparent to the substring test. -/
theorem containsSub_skip_no_nl {pat a z : List Char} {pat' : List Char}
    (hpat : pat = '\n' :: pat') (ha : '\n' ∉ a) :
    containsSub pat (a ++ z) = containsSub pat z := by
  induction a with
  | nil => rfl
  | cons c a' ih =>
    have hc : ¬c = '\n' := fun h => ha (h ▸ List.mem_cons_self c a')
    have ha' : '\n' ∉ a' := fun h => ha (List.mem_cons_of_mem c h)
    simp only [List.cons_append, containsSub, List.append_eq]
    rw [hpat]
    have hpref : ('\n' :: pat').isPrefixOf (c :: (a' ++ z)) = false := by
      simp only [List.isPrefixOf]
      have : ('\n' == c) = false := by
        simp only [beq_eq_false_iff_ne, ne_eq]
        exact fun h => hc h.symm
      rw [this]
      rfl
    rw [hpref]
    simpa [hpat] using ih ha'

theorem containsSub_nil_pat_ne {pat : List Char} (h : pat ≠ []) :
    containsSub pat [] = false := by
  cases pat with
  | nil => exact absurd rfl h
  | cons p ps => simp [containsSub, List.isPrefixOf]

/-! ## Whitespace flanks and `pyStrip` over appends -/

theorem dropWhile_ws_all_append {pre y : List Char}
    (h : ∀ c ∈ pre, isPySpace c = true) :
    (pre ++ y).dropWhile isPySpace = y.dropWhile isPySpace := by
  induction pre with
  | nil => rfl
  | cons c pre' ih =>
    rw [List.cons_append, List.dropWhile_cons_of_pos (h c (List.mem_cons_self c pre'))]
    exact ih fun d hd => h d (List.mem_cons_of_mem c hd)

theorem dropWhile_append_of_ne_nil {p : Char → Bool} {l l' : List Char}
    (h : l.dropWhile p ≠ []) : (l ++ l').dropWhile p = l.dropWhile p ++ l' := by
  induction l with
  | nil => exact absurd rfl h
  | cons c rest ih =>
    by_cases hc : p c = true
    · rw [List.cons_append, List.dropWhile_cons_of_pos hc, List.dropWhile_cons_of_pos hc]
      exact ih (by rwa [List.dropWhile_cons_of_pos hc] at h)
    · rw [List.cons_append, List.dropWhile_cons_of_neg hc, List.dropWhile_cons_of_neg hc]
      rfl

theorem pyStrip_ws_left {pre y : List Char} (h : ∀ c ∈ pre, isPySpace c = true) :
    pyStrip (pre ++ y) = pyStrip y := by
  unfold pyStrip
  rw [dropWhile_ws_all_append h]

theorem pyStrip_ws_right {y suf : List Char} (h : ∀ c ∈ suf, isPySpace c = true) :
    pyStrip (y ++ suf) = pyStrip y := by
  by_cases hy : y.dropWhile isPySpace = []
  · have hys : pyStrip y = [] := by unfold pyStrip; rw [hy]; rfl
    have hall : ∀ c ∈ y ++ suf, isPySpace c = true := by
      intro c hc
      rcases List.mem_append.mp hc with h1 | h2
      · exact List.dropWhile_eq_nil_iff.mp hy c h1
      · exact h c h2
    rw [pyStrip_eq_nil_of_allws hall, hys]
  · unfold pyStrip
    rw [dropWhile_append_of_ne_nil hy, List.reverse_append,
      dropWhile_ws_all_append (by intro c hc; rw [List.mem_reverse] at hc; exact h c hc)]

/-! ## The shape of section contents produced by the heading parse

Every content string built by `_parse_heading_structure` is a non-empty
sequence of stripped, non-empty, newline-free lines, each followed by one
newline (blank lines are skipped by the parser). -/

/-- A line as stored into section contents: non-empty, stripped, no newline. -/
def IsCleanLine (l : List Char) : Prop :=
  l ≠ [] ∧ pyStrip l = l ∧ '\n' ∉ l

/-- Concatenation of lines, each terminated by a newline. -/
def joinLn : List (List Char) → List Char
  | [] => []
  | l :: ls => l ++ '\n' :: joinLn ls

/-- Contents produced by the parser. -/
def GoodContent (c : List Char) : Prop :=
  ∃ ls, ls ≠ [] ∧ (∀ l ∈ ls, IsCleanLine l) ∧ c = joinLn ls

theorem joinLn_append (a b : List (List Char)) :
    joinLn (a ++ b) = joinLn a ++ joinLn b := by
  induction a with
  | nil => rfl
  | cons l a' ih => simp only [List.cons_append, joinLn, List.append_eq, ih, List.append_assoc]

theorem goodContent_line {l : List Char} (h : IsCleanLine l) :
    GoodContent (l ++ ['\n']) :=
  ⟨[l], by simp, by simpa using h, rfl⟩

theorem goodContent_append {c l : List Char} (hc : GoodContent c) (hl : IsCleanLine l) :
    GoodContent (c ++ l ++ ['\n']) := by
  obtain ⟨ls, hne, hcl, rfl⟩ := hc
  refine ⟨ls ++ [l], by simp, ?_, ?_⟩
  · intro l' hl'
    rcases List.mem_append.mp hl' with h1 | h2
    · exact hcl l' h1
    · rw [List.mem_singleton] at h2
      exact h2 ▸ hl
  · rw [joinLn_append]
    simp [joinLn, List.append_assoc]

theorem mem_pyStrip {s : List Char} {c : Char} (h : c ∈ pyStrip s) : c ∈ s := by
  obtain ⟨pre, suf, -, -, hdec⟩ := pyStrip_decomp s
  rw [hdec]
  simp [h]

theorem isCleanLine_strip {raw : List Char} (hnl : '\n' ∉ raw)
    (hne : ¬(pyStrip raw).isEmpty = true) : IsCleanLine (pyStrip raw) := by
  refine ⟨fun h => hne (by rw [h]; rfl), pyStrip_idem raw, fun h => hnl (mem_pyStrip h)⟩

/-- The invariant carried through the parser fold. -/
def ContentInv (st : ParseState) : Prop :=
  (∀ s ∈ st.1, GoodContent s.content) ∧ (∀ s, st.2 = some s → GoodContent s.content)

theorem parseStep_contentInv {st : ParseState} {rawLine : List Char}
    (hs : ContentInv st) (hnl : '\n' ∉ rawLine) : ContentInv (parseStep st rawLine) := by
  obtain ⟨h1, h2⟩ := hs
  simp only [parseStep]
  by_cases he : (pyStrip rawLine).isEmpty = true
  · rw [if_pos he]; exact ⟨h1, h2⟩
  · rw [if_neg he]
    have hclean : IsCleanLine (pyStrip rawLine) := isCleanLine_strip hnl he
    by_cases hh : "##".toList.isPrefixOf (pyStrip rawLine) = true
    · rw [if_pos hh]
      refine ⟨?_, ?_⟩
      · intro s hmem
        cases hcur : st.2 with
        | none => rw [hcur] at hmem; exact h1 s hmem
        | some cur =>
          rw [hcur] at hmem
          rcases List.mem_append.mp hmem with hm | hm
          · exact h1 s hm
          · rw [List.mem_singleton] at hm
            exact hm ▸ h2 cur hcur
      · intro s hsome
        obtain rfl : s = ⟨(pyStrip rawLine).count '#',
            pyStrip ((pyStrip rawLine).dropWhile (fun c => c = '#')),
            pyStrip rawLine ++ ['\n']⟩ := by
          cases st.2 <;> simpa using hsome.symm
        exact goodContent_line hclean
    · rw [if_neg hh]
      cases hcur : st.2 with
      | some cur =>
        refine ⟨h1, ?_⟩
        intro s hsome
        obtain rfl : s = { cur with content := cur.content ++ pyStrip rawLine ++ ['\n'] } := by
          simpa using hsome.symm
        exact goodContent_append (h2 cur hcur) hclean
      | none =>
        cases hlast : st.1.getLast? with
        | none =>
          refine ⟨?_, by simp⟩
          intro s hmem
          rw [List.mem_singleton] at hmem
          subst hmem
          exact goodContent_line hclean
        | some lastSec =>
          have hlastMem : lastSec ∈ st.1 := List.mem_of_mem_getLast? hlast
          dsimp only
          by_cases hlvl : lastSec.level ≠ 0
          · rw [if_pos hlvl]
            refine ⟨?_, by simp⟩
            intro s hmem
            rcases List.mem_append.mp hmem with hm | hm
            · exact h1 s hm
            · rw [List.mem_singleton] at hm
              subst hm
              exact goodContent_line hclean
          · rw [if_neg hlvl]
            refine ⟨?_, by simp⟩
            intro s hmem
            rcases List.mem_append.mp hmem with hm | hm
            · exact h1 s ((List.dropLast_sublist _).subset hm)
            · rw [List.mem_singleton] at hm
              subst hm
              exact goodContent_append (h1 lastSec hlastMem) hclean

theorem foldl_preserves {α β : Type} (P : α → Prop) (f : α → β → α) :
    ∀ (l : List β) (init : α), P init → (∀ st x, x ∈ l → P st → P (f st x)) →
      P (l.foldl f init) := by
  intro l
  induction l with
  | nil => intro init h _; exact h
  | cons a l ih =>
    intro init h hstep
    rw [List.foldl_cons]
    exact ih (f init a) (hstep init a (by simp) h)
      fun st x hx => hstep st x (List.mem_cons_of_mem a hx)

theorem parseHeadingStructure_good {text : List Char} :
    ∀ s ∈ parseHeadingStructure text, GoodContent s.content := by
  have hinv : ContentInv ((splitLines text).foldl parseStep ([], none)) := by
    apply foldl_preserves ContentInv parseStep (splitLines text) ([], none)
    · exact ⟨by simp, by simp⟩
    · intro st l hl hst
      exact parseStep_contentInv hst (splitLines_no_nl l hl)
  obtain ⟨h1, h2⟩ := hinv
  intro s hmem
  replace hmem : s ∈ (match ((splitLines text).foldl parseStep ([], none)).2 with
      | some cur => ((splitLines text).foldl parseStep ([], none)).1 ++ [cur]
      | none => ((splitLines text).foldl parseStep ([], none)).1) := hmem
  cases hcur : ((splitLines text).foldl parseStep ([], none)).2 with
  | none =>
    rw [hcur] at hmem
    exact h1 s hmem
  | some cur =>
    rw [hcur] at hmem
    rcases List.mem_append.mp hmem with hm | hm
    · exact h1 s hm
    · rw [List.mem_singleton] at hm
      exact hm ▸ h2 cur hcur

/-! ## Section contents contain no blank line (no double newline) -/

theorem notContains_nlnl_joinLn :
    ∀ ls : List (List Char), (∀ l ∈ ls, IsCleanLine l) →
      containsSub ['\n', '\n'] (joinLn ls) = false := by
  intro ls
  induction ls with
  | nil =>
    intro _
    exact containsSub_nil_pat_ne (by simp)
  | cons l ls' ih =>
    intro h
    obtain ⟨hne, hfix, hnl⟩ := h l (List.mem_cons_self l ls')
    rw [show joinLn (l :: ls') = l ++ '\n' :: joinLn ls' from rfl]
    rw [containsSub_skip_no_nl rfl hnl]
    simp only [containsSub, Bool.or_eq_false_iff]
    refine ⟨?_, ih fun l' hl' => h l' (List.mem_cons_of_mem l hl')⟩
    cases hls : ls' with
    | nil => simp [joinLn, List.isPrefixOf]
    | cons l₂ ls'' =>
      obtain ⟨hne₂, hfix₂, -⟩ := h l₂ (by rw [hls]; simp)
      cases hl₂ : l₂ with
      | nil => exact absurd hl₂ hne₂
      | cons d t =>
        have hd : isPySpace d = false := pyStrip_head_not_ws (s := l₂) (by rw [hfix₂, hl₂])
        have hdn : ('\n' == d) = false := by
          simp only [beq_eq_false_iff_ne, ne_eq]
          intro hcon
          rw [← hcon] at hd
          simp [isPySpace] at hd
        simp [joinLn, List.isPrefixOf, hdn]

theorem notContains_nlnl_pyStrip_good {c : List Char} (h : GoodContent c) :
    containsSub ['\n', '\n'] (pyStrip c) = false := by
  obtain ⟨ls, hne, hcl, rfl⟩ := h
  have hjoin := notContains_nlnl_joinLn ls hcl
  cases hcs : containsSub ['\n', '\n'] (pyStrip (joinLn ls)) with
  | false => rfl
  | true =>
    obtain ⟨pre, suf, -, -, hdec⟩ := pyStrip_decomp (joinLn ls)
    have hcon := containsSub_sandwich pre suf hcs
    rw [← hdec, hjoin] at hcon
    exact absurd hcon (by simp)

theorem notContains_nlnl_content {text : List Char} {s : PSection}
    (hmem : s ∈ parseHeadingStructure text) :
    containsSub ['\n', '\n'] s.content = false := by
  obtain ⟨ls, hne, hcl, hc⟩ := parseHeadingStructure_good s hmem
  rw [hc]
  exact notContains_nlnl_joinLn ls hcl

theorem pyStrip_good_ne_nil {c : List Char} (h : GoodContent c) : pyStrip c ≠ [] := by
  obtain ⟨ls, hne, hcl, rfl⟩ := h
  cases ls with
  | nil => exact absurd rfl hne
  | cons l ls' =>
    obtain ⟨hlne, hfix, -⟩ := hcl l (List.mem_cons_self l ls')
    intro hstrip
    have hall := allws_of_pyStrip_eq_nil hstrip
    obtain ⟨d, t, hl⟩ : ∃ d t, l = d :: t := by
      cases l with
      | nil => exact absurd rfl hlne
      | cons d t => exact ⟨d, t, rfl⟩
    have hd : isPySpace d = true := by
      apply hall
      rw [show joinLn (l :: ls') = l ++ '\n' :: joinLn ls' from rfl, hl]
      simp
    have hd2 := pyStrip_head_not_ws (s := l) (by rw [hfix, hl])
    rw [hd] at hd2
    exact absurd hd2 (by simp)

/-! ## Small sections pass through paragraph chunking unchanged -/

theorem splitNlNl_eq_single {x : List Char}
    (h : containsSub ['\n', '\n'] x = false) : splitNlNl x = [x] := by
  induction x with
  | nil => rfl
  | cons c rest ih =>
    simp only [containsSub, Bool.or_eq_false_iff] at h
    obtain ⟨h1, h2⟩ := h
    have hnot : ¬(c = '\n' ∧ rest.head? = some '\n') := by
      rintro ⟨rfl, hh⟩
      cases rest with
      | nil => simp at hh
      | cons d t =>
        have hd : d = '\n' := by simpa using hh
        subst hd
        simp [List.isPrefixOf] at h1
    rw [splitNlNl_cons hnot, ih h2]
    rfl

theorem chunkByParagraphs_small {x : List Char} {m : Nat}
    (hfix : pyStrip x = x) (hne : x ≠ [])
    (hnn : containsSub ['\n', '\n'] x = false) (hlen : x.length ≤ m) :
    chunkByParagraphs x m = [x] := by
  have hxe : x.isEmpty = false := by
    cases x with
    | nil => exact absurd rfl hne
    | cons a t => rfl
  unfold chunkByParagraphs
  rw [splitNlNl_eq_single hnn]
  have hparas : (([x].map pyStrip).filter fun p => !p.isEmpty) = [x] := by
    simp [hfix, hxe]
  rw [hparas]
  have hloop : paraLoop m [x] [] = [x] := by
    rw [show paraLoop m [x] [] = paraLoop m [] x from by simp [paraLoop]]
    simp [paraLoop, hxe, hfix]
  show ((paraLoop m [x] []).flatMap
    fun c => if c.length > m then chunkBySentences c m else [c]) = [x]
  rw [hloop]
  have hflat : [x].flatMap
      (fun c => if c.length > m then chunkBySentences c m else [c]) = [x] := by
    simp only [List.flatMap_cons, List.flatMap_nil, List.append_nil]
    rw [if_neg (by omega)]
  exact hflat

/-- The first (pre-split) size ceiling per section level, from
`_process_section`. -/
def firstCeiling : Nat → Nat
  | 0 => 1500
  | 1 => 2000
  | 2 => 2000
  | 3 => 1500
  | _ => 1000

theorem firstCeiling_ge_four {n : Nat} (h0 : n ≠ 0) (h1 : n ≠ 1) (h2 : n ≠ 2)
    (h3 : n ≠ 3) : firstCeiling n = 1000 := by
  obtain ⟨m, rfl⟩ : ∃ m, n = m + 4 := ⟨n - 4, by omega⟩
  rfl

/-- **C3 (amended).** A section produced by the heading parse whose content
length is at most the first ceiling for its level is emitted as exactly one
chunk, equal to the section content with surrounding whitespace stripped
(i.e. the content minus its trailing newline) — not the raw content verbatim,
since `_process_section` strips the content first. -/
theorem C3_small_section (text : List Char) (s : PSection)
    (hmem : s ∈ parseHeadingStructure text)
    (hlen : s.content.length ≤ firstCeiling s.level) :
    processSection s = [pyStrip s.content] := by
  have hgood := parseHeadingStructure_good s hmem
  have hxfix := pyStrip_idem s.content
  have hxne := pyStrip_good_ne_nil hgood
  have hxnn := notContains_nlnl_pyStrip_good hgood
  have hxl := pyStrip_length_le s.content
  have hxe : (pyStrip s.content).isEmpty = false := by
    cases hx : pyStrip s.content with
    | nil => exact absurd hx hxne
    | cons a t => rfl
  simp only [processSection, hxe, Bool.false_eq_true, if_false]
  by_cases h0 : s.level = 0
  · rw [if_pos h0]
    rw [h0] at hlen
    exact chunkByParagraphs_small hxfix hxne hxnn
      (le_trans hxl (by simpa [firstCeiling] using hlen))
  · rw [if_neg h0]
    by_cases h1 : s.level = 1
    · rw [if_pos h1]
      rw [h1] at hlen
      exact chunkByParagraphs_small hxfix hxne hxnn
        (le_trans hxl (by simpa [firstCeiling] using hlen))
    · rw [if_neg h1]
      by_cases h2 : s.level = 2
      · rw [if_pos h2]
        rw [h2] at hlen
        rw [if_pos (le_trans hxl (by simpa [firstCeiling] using hlen))]
      · rw [if_neg h2]
        by_cases h3 : s.level = 3
        · rw [if_pos h3]
          rw [h3] at hlen
          rw [if_pos (le_trans hxl (by simpa [firstCeiling] using hlen))]
        · rw [if_neg h3]
          rw [firstCeiling_ge_four h0 h1 h2 h3] at hlen
          rw [if_pos (le_trans hxl hlen)]

/-- Witness for C3 at a concrete parsed section. -/
theorem C3_small_section_witness :
    processSection ⟨0, "Introduction".toList, "A single concrete line.\n".toList⟩ =
      [pyStrip ("A single concrete line.\n".toList)] :=
  C3_small_section ("A single concrete line.".toList)
    ⟨0, "Introduction".toList, "A single concrete line.\n".toList⟩ (by decide) (by decide)

/-- **C3 (counterexample).** The emitted chunk is the *stripped* content, not
the content verbatim: every parse-produced content ends in a newline, and the
chunk drops it. -/
theorem C3_counterexample :
    (⟨0, "Introduction".toList, "Short line of text.\n".toList⟩ : PSection) ∈
        parseHeadingStructure ("Short line of text.".toList) ∧
      ("Short line of text.\n".toList).length ≤ firstCeiling 0 ∧
      processSection ⟨0, "Introduction".toList, "Short line of text.\n".toList⟩ ≠
        ["Short line of text.\n".toList] ∧
      processSection ⟨0, "Introduction".toList, "Short line of text.\n".toList⟩ =
        ["Short line of text.".toList] := by
  exact ⟨by decide, by decide, by decide, by decide⟩

/-- **C4 (amended).** Blank lines are not preserved inside section contents:
the parser strips every line and skips the empty ones, so the content of any
section produced by the heading parse never contains a double newline — there
are no blank-line paragraph boundaries left for the paragraph splitter. -/
theorem C4_blank_lines_dropped (text : List Char) (s : PSection)
    (hmem : s ∈ parseHeadingStructure text) :
    containsSub ['\n', '\n'] s.content = false :=
  notContains_nlnl_content hmem

/-- Witness for C4 at a concrete parsed section. -/
theorem C4_blank_lines_dropped_witness :
    containsSub ['\n', '\n']
      ((⟨0, "Introduction".toList, "Hello world.\n".toList⟩ : PSection)).content = false :=
  C4_blank_lines_dropped ("Hello world.".toList)
    ⟨0, "Introduction".toList, "Hello world.\n".toList⟩ (by decide)

/-- **C4 (counterexample).** An input with a blank line between two content
lines: the blank line is discarded, the section content joins the lines with a
single newline and contains no double newline. -/
theorem C4_counterexample :
    parseHeadingStructure ("First paragraph line.\n\nSecond paragraph line.".toList) =
      [⟨0, "Introduction".toList,
        "First paragraph line.\nSecond paragraph line.\n".toList⟩] ∧
      containsSub ['\n', '\n']
        ("First paragraph line.\n\nSecond paragraph line.".toList) = true ∧
      containsSub ['\n', '\n']
        ("First paragraph line.\nSecond paragraph line.\n".toList) = false := by
  exact ⟨by decide, by decide, by decide⟩

/-! ## Claim C8: shape of `HTMLCleaner` output -/

theorem pyStrip_eq_self_of_ends' {x : List Char}
    (hh : ∀ c, x.head? = some c → isPySpace c = false)
    (hl : ∀ c, x.getLast? = some c → isPySpace c = false) : pyStrip x = x := by
  apply pyStrip_eq_self_of_ends
  · intro c t h
    exact hh c (by rw [h]; rfl)
  · intro c t h
    exact hl c (by rw [h]; simp)

theorem containsSub_no_nl {pat pat' r : List Char} (hpat : pat = '\n' :: pat')
    (hr : '\n' ∉ r) : containsSub pat r = false := by
  have h := containsSub_skip_no_nl (z := []) hpat hr
  rw [List.append_nil] at h
  rw [h, hpat]
  exact containsSub_nil_pat_ne (by simp)

theorem splitLines_single {r : List Char} (hr : '\n' ∉ r) : splitLines r = [r] := by
  induction r with
  | nil => rfl
  | cons c rest ih =>
    have hc : ¬c = '\n' := fun h => hr (h ▸ List.mem_cons_self c rest)
    rw [splitLines_cons_ne hc, ih fun h => hr (List.mem_cons_of_mem c h)]
    rfl

theorem collapseWs_no_nl : ∀ (b : Bool) (s : List Char), '\n' ∉ collapseWs b s := by
  intro b s
  induction s generalizing b with
  | nil => simp [collapseWs]
  | cons c rest ih =>
    simp only [collapseWs]
    by_cases hc : isPySpace c = true
    · rw [if_pos hc]
      by_cases hb : b = true
      · rw [if_pos hb]; exact ih true
      · rw [if_neg hb]
        intro hmem
        rcases List.mem_cons.mp hmem with h | h
        · simp at h
        · exact ih true h
    · rw [if_neg hc]
      intro hmem
      rcases List.mem_cons.mp hmem with h | h
      · subst h; simp [isPySpace] at hc
      · exact ih false h

/-- The three C8 invariants hold for any newline-free string after `pyStrip`. -/
theorem invariants_of_no_nl {y : List Char} (hy : '\n' ∉ y) :
    pyStrip (pyStrip y) = pyStrip y ∧ (∀ l ∈ splitLines (pyStrip y), pyStrip l = l) ∧
      containsSub ['\n', '\n', '\n'] (pyStrip y) = false := by
  have hr : '\n' ∉ pyStrip y := fun h => hy (mem_pyStrip h)
  refine ⟨pyStrip_idem y, ?_, containsSub_no_nl rfl hr⟩
  intro l hl
  rw [splitLines_single hr, List.mem_singleton] at hl
  subst hl
  exact pyStrip_idem y

theorem fallbackClean_invariants (html : List Char) :
    pyStrip (fallbackClean html) = fallbackClean html ∧
      (∀ l ∈ splitLines (fallbackClean html), pyStrip l = l) ∧
      containsSub ['\n', '\n', '\n'] (fallbackClean html) = false :=
  invariants_of_no_nl (collapseWs_no_nl false (stripTags 0 html))

theorem nwLoop_inv :
    ∀ (lines accRev : List (List Char)),
      (∀ l ∈ lines, '\n' ∉ l) →
      (∀ l ∈ accRev, pyStrip l = l ∧ '\n' ∉ l) →
      List.Chain' (fun a b => ¬(a = [] ∧ b = [])) accRev →
      accRev.getLast? ≠ some [] →
      (∀ l ∈ nwLoop lines accRev, pyStrip l = l ∧ '\n' ∉ l) ∧
        List.Chain' (fun a b => ¬(a = [] ∧ b = [])) (nwLoop lines accRev) ∧
        (nwLoop lines accRev).head? ≠ some [] := by
  intro lines
  induction lines with
  | nil =>
    intro accRev hln hel hch hlast
    rw [show nwLoop [] accRev = accRev.reverse from rfl]
    refine ⟨fun l hl => hel l (List.mem_reverse.mp hl), ?_, ?_⟩
    · rw [List.chain'_reverse]
      exact hch.imp fun a b h hab => h ⟨hab.2, hab.1⟩
    · rw [List.head?_reverse accRev]
      exact hlast
  | cons l ls ih =>
    intro accRev hln hel hch hlast
    have hlnl : '\n' ∉ l := hln l (List.mem_cons_self l ls)
    have hln' : ∀ l' ∈ ls, '\n' ∉ l' := fun l' hl' => hln l' (List.mem_cons_of_mem l hl')
    simp only [nwLoop]
    by_cases hcl : (pyStrip l).isEmpty = true
    · rw [if_neg (by simp [hcl])]
      cases accRev with
      | nil => exact ih [] hln' hel hch hlast
      | cons last t =>
        dsimp only
        by_cases hle : last.isEmpty = true
        · rw [if_neg (by simp [hle])]
          exact ih (last :: t) hln' hel hch hlast
        · rw [if_pos (by simp [hle])]
          apply ih ([] :: last :: t) hln'
          · intro l' hl'
            rcases List.mem_cons.mp hl' with rfl | hm
            · exact ⟨rfl, by simp⟩
            · exact hel l' hm
          · rw [List.chain'_cons']
            refine ⟨?_, hch⟩
            intro y hy
            simp only [List.head?_cons, Option.mem_def, Option.some.injEq] at hy
            subst hy
            rintro ⟨-, hc⟩
            subst hc
            simp at hle
          · rw [List.getLast?_cons_cons]
            exact hlast
    · rw [if_pos (by simp [hcl])]
      apply ih (pyStrip l :: accRev) hln'
      · intro l' hl'
        rcases List.mem_cons.mp hl' with rfl | hm
        · exact ⟨pyStrip_idem l, fun hmem => hlnl (mem_pyStrip hmem)⟩
        · exact hel l' hm
      · rw [List.chain'_cons']
        refine ⟨?_, hch⟩
        intro y hy
        rintro ⟨hc, -⟩
        rw [hc] at hcl
        simp at hcl
      · cases accRev with
        | nil =>
          simp only [List.getLast?_singleton, ne_eq, Option.some.injEq]
          intro hc
          rw [hc] at hcl
          simp at hcl
        | cons a t =>
          rw [List.getLast?_cons_cons]
          exact hlast

theorem joinNl_cons_of_ne {l : List Char} {ls : List (List Char)} (h : ls ≠ []) :
    joinNl (l :: ls) = l ++ '\n' :: joinNl ls := by
  cases ls with
  | nil => exact absurd rfl h
  | cons a t => rfl

theorem splitLines_append_nl {l : List Char} (hl : '\n' ∉ l) (z : List Char) :
    splitLines (l ++ '\n' :: z) = l :: splitLines z := by
  induction l with
  | nil => rfl
  | cons c l' ih =>
    have hc : ¬c = '\n' := fun h => hl (h ▸ List.mem_cons_self c l')
    rw [List.cons_append, splitLines_cons_ne hc,
      ih fun h => hl (List.mem_cons_of_mem c h)]
    rfl

theorem splitLines_joinNl :
    ∀ ls : List (List Char), ls ≠ [] → (∀ l ∈ ls, '\n' ∉ l) →
      splitLines (joinNl ls) = ls := by
  intro ls
  induction ls with
  | nil => intro h _; exact absurd rfl h
  | cons l ls' ih =>
    intro _ hnl
    cases ls' with
    | nil => exact splitLines_single (hnl l (List.mem_cons_self l []))
    | cons l₂ t =>
      rw [joinNl_cons_of_ne (by simp),
        splitLines_append_nl (hnl l (List.mem_cons_self l (l₂ :: t))),
        ih (by simp) fun l' hl' => hnl l' (List.mem_cons_of_mem l hl')]

theorem joinNl_concat_nil :
    ∀ front : List (List Char), front ≠ [] →
      joinNl (front ++ [[]]) = joinNl front ++ ['\n'] := by
  intro front
  induction front with
  | nil => intro h; exact absurd rfl h
  | cons l front' ih =>
    intro _
    cases front' with
    | nil => rfl
    | cons a t =>
      rw [List.cons_append, joinNl_cons_of_ne (by simp), ih (by simp)]
      conv_rhs => rw [joinNl_cons_of_ne (by simp)]
      simp [List.append_assoc]

theorem joinNl_cons_head {d : Char} {t₂ : List Char} {ls : List (List Char)} :
    ∃ z, joinNl ((d :: t₂) :: ls) = d :: z := by
  cases ls with
  | nil => exact ⟨t₂, rfl⟩
  | cons a t => exact ⟨t₂ ++ '\n' :: joinNl (a :: t), rfl⟩

theorem noTriple_joinNl :
    ∀ ls : List (List Char), (∀ l ∈ ls, '\n' ∉ l) →
      List.Chain' (fun a b => ¬(a = [] ∧ b = [])) ls →
      containsSub ['\n', '\n', '\n'] (joinNl ls) = false := by
  intro ls
  induction ls with
  | nil =>
    intro _ _
    exact containsSub_nil_pat_ne (by simp)
  | cons l ls' ih =>
    intro hnl hch
    cases hls : ls' with
    | nil =>
      exact containsSub_no_nl rfl (hnl l (List.mem_cons_self l ls'))
    | cons l₂ t =>
      subst hls
      rw [joinNl_cons_of_ne (by simp),
        containsSub_skip_no_nl rfl (hnl l (List.mem_cons_self l (l₂ :: t)))]
      simp only [containsSub, Bool.or_eq_false_iff]
      constructor
      · cases hl₂ : l₂ with
        | cons d t₂ =>
          have hd : ('\n' == d) = false := by
            simp only [beq_eq_false_iff_ne, ne_eq]
            intro hcon
            exact hnl l₂ (by simp) (by rw [hl₂, ← hcon]; simp)
          obtain ⟨z, hz⟩ :=
            (joinNl_cons_head : ∃ z, joinNl ((d :: t₂) :: t) = d :: z)
          rw [hz]
          simp [List.isPrefixOf, hd]
        | nil =>
          have hch₂ := (List.chain'_cons'.mp hch).2
          rw [hl₂] at hch₂
          cases ht : t with
          | nil =>
            simp [joinNl, List.isPrefixOf]
          | cons l₃ t' =>
            rw [ht] at hch₂
            have hl₃ : l₃ ≠ [] := by
              have hr := (List.chain'_cons'.mp hch₂).1
              have h2 := hr l₃ (by simp)
              intro hcon
              exact h2 ⟨rfl, hcon⟩
            obtain ⟨d₃, t₃, hdl₃⟩ : ∃ d₃ t₃, l₃ = d₃ :: t₃ := by
              cases l₃ with
              | nil => exact absurd rfl hl₃
              | cons d₃ t₃ => exact ⟨d₃, t₃, rfl⟩
            have hd₃ : ('\n' == d₃) = false := by
              simp only [beq_eq_false_iff_ne, ne_eq]
              intro hcon
              exact hnl l₃ (by rw [ht]; simp) (by rw [hdl₃, ← hcon]; simp)
            obtain ⟨z₃, hz₃⟩ :=
              (joinNl_cons_head : ∃ z, joinNl ((d₃ :: t₃) :: t') = d₃ :: z)
            rw [show joinNl ([] :: l₃ :: t') = '\n' :: joinNl (l₃ :: t') from rfl,
              hdl₃, hz₃]
            simp [List.isPrefixOf, hd₃]
      · exact ih (fun l' hl' => hnl l' (List.mem_cons_of_mem l hl'))
          (List.chain'_cons'.mp hch).2

theorem joinNl_ne_nil_of_getLast {ls : List (List Char)} {last : List Char}
    (hlast : ls.getLast? = some last) (hne : last ≠ []) : joinNl ls ≠ [] := by
  cases ls with
  | nil => simp at hlast
  | cons l t =>
    cases t with
    | nil =>
      simp only [List.getLast?_singleton, Option.some.injEq] at hlast
      subst hlast
      simpa [joinNl] using hne
    | cons a t' =>
      rw [joinNl_cons_of_ne (by simp)]
      cases l with
      | nil => simp
      | cons c cs => simp

theorem getLast?_joinNl :
    ∀ (ls : List (List Char)) (last : List Char), ls.getLast? = some last →
      last ≠ [] → (joinNl ls).getLast? = last.getLast? := by
  intro ls
  induction ls with
  | nil => intro last h _; simp at h
  | cons l t ih =>
    intro last hlast hne
    cases t with
    | nil =>
      simp only [List.getLast?_singleton, Option.some.injEq] at hlast
      subst hlast
      rfl
    | cons a t' =>
      rw [List.getLast?_cons_cons] at hlast
      rw [joinNl_cons_of_ne (by simp)]
      rw [List.getLast?_append_of_ne_nil l (by simp)]
      have hjoin : joinNl (a :: t') ≠ [] := joinNl_ne_nil_of_getLast hlast hne
      cases hj : joinNl (a :: t') with
      | nil => exact absurd hj hjoin
      | cons b bs =>
        rw [List.getLast?_cons_cons, ← hj]
        exact ih last hlast hne

theorem joinNl_strip_fixed {ls : List (List Char)}
    (hel : ∀ l ∈ ls, pyStrip l = l ∧ '\n' ∉ l)
    (hh : ls.head? ≠ some []) (hl : ls.getLast? ≠ some []) :
    pyStrip (joinNl ls) = joinNl ls := by
  cases ls with
  | nil => rfl
  | cons l ls' =>
    have hlne : l ≠ [] := by
      intro hcon
      exact hh (by rw [hcon]; rfl)
    obtain ⟨d, t₂, hld⟩ : ∃ d t₂, l = d :: t₂ := by
      cases l with
      | nil => exact absurd rfl hlne
      | cons d t₂ => exact ⟨d, t₂, rfl⟩
    obtain ⟨last, hlast⟩ : ∃ last, (l :: ls').getLast? = some last :=
      ⟨(l :: ls').getLast (by simp), List.getLast?_eq_getLast _ _⟩
    have hlastne : last ≠ [] := by
      intro hcon
      exact hl (by rw [hlast, hcon])
    have hlastMem : last ∈ l :: ls' := List.mem_of_mem_getLast? hlast
    apply pyStrip_eq_self_of_ends'
    · intro c hc
      obtain ⟨z, hz⟩ := (joinNl_cons_head : ∃ z, joinNl ((d :: t₂) :: ls') = d :: z)
      rw [hld, hz] at hc
      simp only [List.head?_cons, Option.some.injEq] at hc
      subst hc
      exact pyStrip_head_not_ws (s := l) (by rw [(hel l (by simp)).1]; exact hld)
    · intro c hc
      rw [getLast?_joinNl (l :: ls') last hlast hlastne] at hc
      obtain ⟨t', hlt⟩ := List.getLast?_eq_some_iff.mp hc
      exact pyStrip_last_not_ws (s := last) (by rw [(hel last hlastMem).1, hlt])

theorem collapseNl_false_cons {c : Char} {rest : List Char}
    (h : ¬∃ r', c :: rest = '\n' :: '\n' :: '\n' :: r') :
    collapseNl false (c :: rest) = c :: collapseNl false rest := by
  rw [collapseNl.eq_def]
  split
  · simp_all
  · simp_all
  · simp_all
  · rename_i rst hb heq
    exact absurd ⟨rst, heq⟩ h
  · rename_i d tl hno hb heq
    obtain ⟨h1, h2⟩ := List.cons.inj heq
    subst h1; subst h2; rfl

theorem collapseNl_id {s : List Char}
    (h : containsSub ['\n', '\n', '\n'] s = false) : collapseNl false s = s := by
  induction s with
  | nil => rfl
  | cons c rest ih =>
    simp only [containsSub, Bool.or_eq_false_iff] at h
    obtain ⟨h1, h2⟩ := h
    rw [collapseNl_false_cons ?_, ih h2]
    rintro ⟨r', heq⟩
    rw [heq] at h1
    simp [List.isPrefixOf] at h1

theorem normalizeWhitespace_eq_joinNl (t : List Char) :
    ∃ ls : List (List Char),
      (∀ l ∈ ls, pyStrip l = l ∧ '\n' ∉ l) ∧
        List.Chain' (fun a b => ¬(a = [] ∧ b = [])) ls ∧
        ls.head? ≠ some [] ∧ ls.getLast? ≠ some [] ∧
        normalizeWhitespace t = joinNl ls := by
  obtain ⟨hel, hch, hhead⟩ :=
    nwLoop_inv (splitLines t) [] splitLines_no_nl (by simp) (by simp) (by simp)
  have hnt : containsSub ['\n', '\n', '\n'] (joinNl (nwLoop (splitLines t) [])) = false :=
    noTriple_joinNl _ (fun l hl => (hel l hl).2) hch
  have hcol := collapseNl_id hnt
  unfold normalizeWhitespace
  rw [hcol]
  by_cases hlast : (nwLoop (splitLines t) []).getLast? = some []
  · obtain ⟨front, hfront⟩ := List.getLast?_eq_some_iff.mp hlast
    have hfne : front ≠ [] := by
      rintro rfl
      rw [hfront] at hhead
      simp at hhead
    have hmemf : ∀ l ∈ front, pyStrip l = l ∧ '\n' ∉ l := by
      intro l hl
      exact hel l (by rw [hfront]; exact List.mem_append_left _ hl)
    have hchf : List.Chain' (fun a b => ¬(a = [] ∧ b = [])) front := by
      rw [hfront] at hch
      exact (List.chain'_append.mp hch).1
    have hheadf : front.head? ≠ some [] := by
      cases hf : front with
      | nil => exact absurd hf hfne
      | cons a t' =>
        rw [hfront, hf] at hhead
        simpa using hhead
    have hlastf : front.getLast? ≠ some [] := by
      rw [hfront] at hch
      have hr := (List.chain'_append.mp hch).2.2
      intro hcon
      exact hr [] hcon [] rfl ⟨rfl, rfl⟩
    refine ⟨front, hmemf, hchf, hheadf, hlastf, ?_⟩
    rw [hfront, joinNl_concat_nil front hfne,
      pyStrip_ws_right (by intro c hc; rw [List.mem_singleton] at hc; subst hc; rfl)]
    exact joinNl_strip_fixed hmemf hheadf hlastf
  · refine ⟨nwLoop (splitLines t) [], hel, hch, hhead, hlast, ?_⟩
    exact joinNl_strip_fixed hel hhead hlast

/-- **C8.** For every HTML input and every outcome of the BeautifulSoup
try-block (the `bsExtract` oracle; `none` = exception, handled by the regex
fallback): the string returned by `clean_html` is stripped of leading and
trailing whitespace, each of its lines is individually stripped, and it never
contains three consecutive newline characters (no run of two or more blank
lines) — on the normal `_normalize_whitespace` path and on the
`_fallback_clean` path alike. -/
theorem C8_clean_html_whitespace (bsExtract : List Char → Option (List Char))
    (html : List Char) :
    pyStrip (cleanHtmlWith bsExtract html) = cleanHtmlWith bsExtract html ∧
      (∀ l ∈ splitLines (cleanHtmlWith bsExtract html), pyStrip l = l) ∧
      containsSub ['\n', '\n', '\n'] (cleanHtmlWith bsExtract html) = false := by
  unfold cleanHtmlWith
  by_cases hs : (pyStrip html).isEmpty = true
  · rw [if_pos hs]
    refine ⟨rfl, ?_, by decide⟩
    intro l hl
    rw [show splitLines [] = [[]] from rfl, List.mem_singleton] at hl
    subst hl
    rfl
  · rw [if_neg hs]
    cases hbe : bsExtract html with
    | none => exact fallbackClean_invariants html
    | some t =>
      dsimp only
      obtain ⟨ls, hel, hch, hh, hl, heq⟩ := normalizeWhitespace_eq_joinNl t
      rw [heq]
      refine ⟨joinNl_strip_fixed hel hh hl, ?_,
        noTriple_joinNl ls (fun l hl' => (hel l hl').2) hch⟩
      intro l hl'
      cases hls : ls with
      | nil =>
        rw [hls] at hl'
        rw [show splitLines (joinNl []) = [[]] from rfl, List.mem_singleton] at hl'
        subst hl'
        rfl
      | cons a t' =>
        rw [splitLines_joinNl ls (by rw [hls]; simp)
          (fun l'' hm => (hel l'' hm).2)] at hl'
        exact (hel l hl').1

/-! ## Claim C2: occurrence conservation of whitespace-free tokens

The placeholder `__CODE_BLOCK_0__` contains no whitespace, and every split
performed by the chunker happens at whitespace.  We prove that the greedy
occurrence count of a whitespace-free pattern is conserved through the whole
pipeline, which pins down where a code block can reappear after restoration. -/

theorem countSubAux_zero_cons (pat : List Char) (c : Char) (rest : List Char) :
    countSubAux pat 0 (c :: rest) =
      if (pat.isPrefixOf (c :: rest) && !pat.isEmpty) = true then
        countSubAux pat (pat.length - 1) rest + 1
      else countSubAux pat 0 rest := rfl

theorem countSubAux_succ_cons (pat : List Char) (k : Nat) (c : Char) (rest : List Char) :
    countSubAux pat (k + 1) (c :: rest) = countSubAux pat k rest := rfl

theorem isPrefixOf_append_ws {w : Char} (hw : isPySpace w = true) :
    ∀ pat : List Char, (∀ x ∈ pat, isPySpace x = false) →
      ∀ a b : List Char, pat.isPrefixOf (a ++ w :: b) = pat.isPrefixOf a := by
  intro pat
  induction pat with
  | nil => intro _ a b; simp [List.isPrefixOf]
  | cons x pat' ih =>
    intro hws a b
    cases a with
    | nil =>
      have hx : (x == w) = false := by
        simp only [beq_eq_false_iff_ne, ne_eq]
        intro hcon
        have := hws x (List.mem_cons_self x pat')
        rw [hcon, hw] at this
        exact absurd this (by simp)
      simp [List.isPrefixOf, hx]
    | cons y a' =>
      simp only [List.cons_append, List.isPrefixOf, List.append_eq]
      rw [ih (fun z hz => hws z (List.mem_cons_of_mem x hz)) a' b]

theorem countSubAux_append_ws {w : Char} (hw : isPySpace w = true)
    {pat : List Char} (hws : ∀ x ∈ pat, isPySpace x = false) (hne : pat ≠ []) :
    ∀ (a b : List Char) (k : Nat), k ≤ a.length →
      countSubAux pat k (a ++ w :: b) = countSubAux pat k a + countSub pat b := by
  intro a
  induction a with
  | nil =>
    intro b k hk
    obtain rfl : k = 0 := Nat.le_zero.mp hk
    obtain ⟨x, pat', rfl⟩ : ∃ x pat', pat = x :: pat' := by
      cases pat with
      | nil => exact absurd rfl hne
      | cons x pat' => exact ⟨x, pat', rfl⟩
    have hx : (x == w) = false := by
      simp only [beq_eq_false_iff_ne, ne_eq]
      intro hcon
      have := hws x (List.mem_cons_self x pat')
      rw [hcon, hw] at this
      exact absurd this (by simp)
    rw [List.nil_append, countSubAux_zero_cons]
    rw [if_neg (by simp [List.isPrefixOf, hx])]
    rw [show countSubAux (x :: pat') 0 ([] : List Char) = 0 from rfl, Nat.zero_add]
    rfl
  | cons y a' ih =>
    intro b k hk
    cases k with
    | zero =>
      have hcond : pat.isPrefixOf (y :: (a' ++ w :: b)) = pat.isPrefixOf (y :: a') := by
        have h := isPrefixOf_append_ws hw pat hws (y :: a') b
        rw [List.cons_append] at h
        exact h
      rw [List.cons_append, countSubAux_zero_cons, countSubAux_zero_cons, hcond]
      by_cases hP : (pat.isPrefixOf (y :: a') && !pat.isEmpty) = true
      · rw [if_pos hP, if_pos hP]
        have hfit : pat.length - 1 ≤ a'.length := by
          have hpre : pat <+: (y :: a') :=
            List.isPrefixOf_iff_prefix.mp (Bool.and_eq_true _ _ |>.mp hP).1
          have := hpre.length_le
          simp only [List.length_cons] at this
          omega
        rw [ih b (pat.length - 1) hfit]
        omega
      · rw [if_neg hP, if_neg hP]
        exact ih b 0 (Nat.zero_le _)
    | succ k' =>
      rw [List.cons_append, countSubAux_succ_cons, countSubAux_succ_cons]
      exact ih b k' (by simp only [List.length_cons] at hk; omega)

/-- Occurrences of a whitespace-free pattern split additively at any
whitespace character. -/
theorem countSub_append_ws {w : Char} (hw : isPySpace w = true)
    {pat : List Char} (hws : ∀ x ∈ pat, isPySpace x = false) (hne : pat ≠ [])
    (a b : List Char) :
    countSub pat (a ++ w :: b) = countSub pat a + countSub pat b :=
  countSubAux_append_ws hw hws hne a b 0 (Nat.zero_le _)

theorem countSub_allws {pat : List Char} (hws : ∀ x ∈ pat, isPySpace x = false)
    (hne : pat ≠ []) : ∀ s : List Char, (∀ x ∈ s, isPySpace x = true) →
      countSub pat s = 0 := by
  intro s
  induction s with
  | nil => intro _; rfl
  | cons c rest ih =>
    intro h
    have := countSub_append_ws (h c (List.mem_cons_self c rest)) hws hne [] rest
    rw [List.nil_append] at this
    rw [this, ih fun x hx => h x (List.mem_cons_of_mem c hx)]
    rfl

theorem countSub_ws_left {pat : List Char} (hws : ∀ x ∈ pat, isPySpace x = false)
    (hne : pat ≠ []) {pre : List Char} (hpre : ∀ x ∈ pre, isPySpace x = true)
    (y : List Char) : countSub pat (pre ++ y) = countSub pat y := by
  induction pre with
  | nil => rfl
  | cons w pre' ih =>
    have h := countSub_append_ws (hpre w (List.mem_cons_self w pre')) hws hne [] (pre' ++ y)
    rw [List.nil_append] at h
    rw [List.cons_append, h, ih fun x hx => hpre x (List.mem_cons_of_mem w hx)]
    rw [show countSub pat ([] : List Char) = 0 from rfl, Nat.zero_add]

theorem countSub_ws_right {pat : List Char} (hws : ∀ x ∈ pat, isPySpace x = false)
    (hne : pat ≠ []) {suf : List Char} (hsuf : ∀ x ∈ suf, isPySpace x = true)
    (y : List Char) : countSub pat (y ++ suf) = countSub pat y := by
  cases suf with
  | nil => simp
  | cons w suf' =>
    rw [countSub_append_ws (hsuf w (List.mem_cons_self w suf')) hws hne y suf',
      countSub_allws hws hne suf' fun x hx => hsuf x (List.mem_cons_of_mem w hx)]
    rfl

theorem countSub_pyStrip {pat : List Char} (hws : ∀ x ∈ pat, isPySpace x = false)
    (hne : pat ≠ []) (s : List Char) : countSub pat (pyStrip s) = countSub pat s := by
  obtain ⟨pre, suf, hpre, hsuf, hdec⟩ := pyStrip_decomp s
  conv_rhs => rw [hdec]
  rw [List.append_assoc, countSub_ws_left hws hne hpre, countSub_ws_right hws hne hsuf]

/-- Occurrence conservation across any whitespace-separated decomposition. -/
theorem countSub_splitsInto {pat : List Char} (hws : ∀ x ∈ pat, isPySpace x = false)
    (hne : pat ≠ []) {s : List Char} {ps : List (List Char)} (h : SplitsInto s ps) :
    countSub pat s = (ps.map (countSub pat)).sum := by
  induction h with
  | single s => simp
  | piece p sep rest ps hsep hsne hrest ih =>
    obtain ⟨w, sep', rfl⟩ : ∃ w sep', sep = w :: sep' := by
      cases sep with
      | nil => exact absurd rfl hsne
      | cons w sep' => exact ⟨w, sep', rfl⟩
    have h1 : p ++ (w :: sep') ++ rest = p ++ w :: (sep' ++ rest) := by simp
    rw [h1, countSub_append_ws (hsep w (by simp)) hws hne p (sep' ++ rest),
      countSub_ws_left hws hne (fun x hx => hsep x (List.mem_cons_of_mem w hx)) rest, ih]
    simp

theorem joinLn_concat : ∀ ls : List (List Char), ls ≠ [] →
    ∃ c', joinLn ls = c' ++ ['\n'] := by
  intro ls
  induction ls with
  | nil => intro h; exact absurd rfl h
  | cons l ls' ih =>
    intro _
    cases hls : ls' with
    | nil => exact ⟨l, rfl⟩
    | cons a t =>
      obtain ⟨c', hc'⟩ := ih (by rw [hls]; simp)
      rw [hls] at hc'
      refine ⟨l ++ '\n' :: c', ?_⟩
      rw [show joinLn (l :: a :: t) = l ++ '\n' :: joinLn (a :: t) from rfl, hc']
      simp

theorem countSub_line_nl {pat : List Char} (hws : ∀ x ∈ pat, isPySpace x = false)
    (hne : pat ≠ []) (l : List Char) :
    countSub pat (l ++ ['\n']) = countSub pat l :=
  countSub_ws_right hws hne (by intro x hx; rw [List.mem_singleton] at hx; subst hx; rfl) l

theorem countSub_good_append {pat : List Char} (hws : ∀ x ∈ pat, isPySpace x = false)
    (hne : pat ≠ []) {c : List Char} (hgood : GoodContent c) (l : List Char) :
    countSub pat (c ++ l ++ ['\n']) = countSub pat c + countSub pat l := by
  obtain ⟨ls, hlsne, -, rfl⟩ := hgood
  obtain ⟨c', hc'⟩ := joinLn_concat ls hlsne
  rw [hc']
  rw [show c' ++ ['\n'] ++ l ++ ['\n'] = c' ++ '\n' :: (l ++ ['\n']) from by simp]
  rw [countSub_append_ws (by rfl) hws hne c' (l ++ ['\n']),
    countSub_line_nl hws hne l, countSub_line_nl hws hne c']

/-- Total occurrence count over a parser state. -/
def sectionCount (pat : List Char) (st : ParseState) : Nat :=
  (st.1.map fun s => countSub pat s.content).sum +
    (match st.2 with
      | some cur => countSub pat cur.content
      | none => 0)

theorem parseStep_sectionCount {pat : List Char}
    (hws : ∀ x ∈ pat, isPySpace x = false) (hne : pat ≠ [])
    {st : ParseState} {l : List Char} (hInv : ContentInv st) (hnl : '\n' ∉ l) :
    sectionCount pat (parseStep st l) =
      sectionCount pat st + countSub pat (pyStrip l) := by
  obtain ⟨h1, h2⟩ := hInv
  simp only [parseStep]
  by_cases he : (pyStrip l).isEmpty = true
  · rw [if_pos he]
    rw [List.isEmpty_iff.mp he]
    rfl
  · rw [if_neg he]
    by_cases hh : "##".toList.isPrefixOf (pyStrip l) = true
    · rw [if_pos hh]
      cases hcur : st.2 with
      | none =>
        simp only [sectionCount, hcur, countSub_line_nl hws hne]
        omega
      | some cur =>
        simp only [sectionCount, hcur, List.map_append, List.map_cons, List.map_nil,
          List.sum_append, List.sum_cons, List.sum_nil, countSub_line_nl hws hne]
        omega
    · rw [if_neg hh]
      cases hcur : st.2 with
      | some cur =>
        simp only [sectionCount, hcur,
          countSub_good_append hws hne (h2 cur hcur) (pyStrip l)]
        exact (Nat.add_assoc _ _ _).symm
      | none =>
        cases hlast : st.1.getLast? with
        | none =>
          have h0 : st.1 = [] := List.getLast?_eq_none_iff.mp hlast
          simp only [sectionCount, hcur, h0, List.map_nil, List.sum_nil, List.map_cons,
            List.sum_cons, countSub_line_nl hws hne]
          omega
        | some lastSec =>
          dsimp only
          have hlastMem : lastSec ∈ st.1 := List.mem_of_mem_getLast? hlast
          obtain ⟨front, hfront⟩ := List.getLast?_eq_some_iff.mp hlast
          by_cases hlvl : lastSec.level ≠ 0
          · rw [if_pos hlvl]
            simp only [sectionCount, hcur, List.map_append, List.map_cons, List.map_nil,
              List.sum_append, List.sum_cons, List.sum_nil, countSub_line_nl hws hne]
            omega
          · rw [if_neg hlvl]
            have hdrop : st.1.dropLast = front := by
              rw [hfront, List.dropLast_concat]
            simp only [sectionCount, hcur, hdrop, List.map_append, List.map_cons,
              List.map_nil, List.sum_append, List.sum_cons, List.sum_nil,
              countSub_good_append hws hne (h1 lastSec hlastMem) (pyStrip l)]
            conv_rhs => rw [hfront]
            simp only [List.map_append, List.map_cons, List.map_nil, List.sum_append,
              List.sum_cons, List.sum_nil]
            omega

theorem parse_fold_sectionCount {pat : List Char}
    (hws : ∀ x ∈ pat, isPySpace x = false) (hne : pat ≠ []) :
    ∀ (lines : List (List Char)) (st : ParseState), ContentInv st →
      (∀ l ∈ lines, '\n' ∉ l) →
      sectionCount pat (lines.foldl parseStep st) =
        sectionCount pat st + (lines.map fun l => countSub pat (pyStrip l)).sum := by
  intro lines
  induction lines with
  | nil => intro st _ _; simp
  | cons l ls ih =>
    intro st hInv hnl
    rw [List.foldl_cons,
      ih (parseStep st l) (parseStep_contentInv hInv (hnl l (by simp)))
        (fun l' hl' => hnl l' (List.mem_cons_of_mem l hl')),
      parseStep_sectionCount hws hne hInv (hnl l (by simp))]
    simp only [List.map_cons, List.sum_cons]
    omega

theorem parse_countSub {pat : List Char} (hws : ∀ x ∈ pat, isPySpace x = false)
    (hne : pat ≠ []) (x : List Char) :
    ((parseHeadingStructure x).map fun s => countSub pat s.content).sum =
      countSub pat x := by
  have hfold := parse_fold_sectionCount hws hne (splitLines x) ([], none)
    ⟨by simp, by simp⟩ splitLines_no_nl
  have hinit : sectionCount pat (([], none) : ParseState) = 0 := rfl
  rw [hinit, Nat.zero_add] at hfold
  have hsum : ((splitLines x).map fun l => countSub pat (pyStrip l)).sum =
      countSub pat x := by
    rw [List.map_congr_left fun l _ => countSub_pyStrip hws hne l]
    exact (countSub_splitsInto hws hne (splitsInto_splitLines x)).symm
  rw [hsum] at hfold
  have hout : ((parseHeadingStructure x).map fun s => countSub pat s.content).sum =
      sectionCount pat ((splitLines x).foldl parseStep ([], none)) := by
    replace hout : parseHeadingStructure x =
        (match ((splitLines x).foldl parseStep ([], none)).2 with
          | some cur => ((splitLines x).foldl parseStep ([], none)).1 ++ [cur]
          | none => ((splitLines x).foldl parseStep ([], none)).1) := rfl
    rw [hout]
    cases hcur : ((splitLines x).foldl parseStep ([], none)).2 with
    | none => simp [sectionCount, hcur]
    | some cur => simp [sectionCount, hcur]
  rw [hout, hfold]

theorem sum_map_flatMap {α β : Type} (f : α → List β) (g : β → Nat) (l : List α) :
    ((l.flatMap f).map g).sum = (l.map fun x => ((f x).map g).sum).sum := by
  induction l with
  | nil => rfl
  | cons a t ih =>
    simp only [List.flatMap_cons, List.map_append, List.sum_append, List.map_cons,
      List.sum_cons, ih]

theorem sum_map_filter_of_zero {α : Type} (p : α → Bool) (g : α → Nat) :
    ∀ l : List α, (∀ x ∈ l, p x = false → g x = 0) →
      ((l.filter p).map g).sum = (l.map g).sum := by
  intro l
  induction l with
  | nil => intro _; rfl
  | cons a t ih =>
    intro h
    rw [List.filter_cons]
    by_cases hp : p a = true
    · rw [if_pos hp]
      simp only [List.map_cons, List.sum_cons,
        ih fun x hx hfx => h x (List.mem_cons_of_mem a hx) hfx]
    · rw [if_neg (by simp [hp])]
      simp only [List.map_cons, List.sum_cons,
        ih fun x hx hfx => h x (List.mem_cons_of_mem a hx) hfx,
        h a (List.mem_cons_self a t) (by simpa using hp)]
      omega

theorem countSub_nil (pat : List Char) : countSub pat [] = 0 := rfl

theorem countSub_cons_ws {pat : List Char} (hws : ∀ x ∈ pat, isPySpace x = false)
    (hne : pat ≠ []) {w : Char} (hw : isPySpace w = true) (b : List Char) :
    countSub pat (w :: b) = countSub pat b := by
  have h := countSub_append_ws hw hws hne [] b
  rw [List.nil_append] at h
  rw [h, countSub_nil, Nat.zero_add]

theorem sentLoop_countSub {pat : List Char} (hws : ∀ x ∈ pat, isPySpace x = false)
    (hne : pat ≠ []) (m : Nat) :
    ∀ (ss : List (List Char)) (cur : List Char),
      ((sentLoop m ss cur).map (countSub pat)).sum =
        (ss.map (countSub pat)).sum + countSub pat cur := by
  intro ss
  induction ss with
  | nil =>
    intro cur
    simp only [sentLoop]
    by_cases hc : cur.isEmpty = true
    · rw [if_pos hc, List.isEmpty_iff.mp hc]
      rfl
    · rw [if_neg hc]
      simp [countSub_pyStrip hws hne]
  | cons s ss' ih =>
    intro cur
    simp only [sentLoop]
    by_cases hs : (pyStrip s).isEmpty = true
    · rw [if_pos hs]
      have h0 : countSub pat s = 0 := by
        rw [← countSub_pyStrip hws hne s, List.isEmpty_iff.mp hs, countSub_nil]
      rw [ih cur]
      simp only [List.map_cons, List.sum_cons, h0, countSub_nil]
      omega
    · rw [if_neg hs]
      by_cases hflush : (!cur.isEmpty && cur.length + (pyStrip s).length + 1 > m) = true
      · rw [if_pos hflush]
        simp only [List.map_cons, List.sum_cons, ih (pyStrip s),
          countSub_pyStrip hws hne]
        omega
      · rw [if_neg hflush]
        by_cases hce : cur.isEmpty = true
        · rw [if_pos hce, ih (pyStrip s), List.isEmpty_iff.mp hce]
          simp only [List.map_cons, List.sum_cons, countSub_pyStrip hws hne, countSub_nil]
          omega
        · rw [if_neg hce, ih (cur ++ ' ' :: pyStrip s)]
          rw [countSub_append_ws (by rfl) hws hne cur (pyStrip s),
            countSub_pyStrip hws hne]
          simp only [List.map_cons, List.sum_cons]
          omega

theorem chunkBySentences_countSub {pat : List Char}
    (hws : ∀ x ∈ pat, isPySpace x = false) (hne : pat ≠ [])
    (x : List Char) (m : Nat) :
    ((chunkBySentences x m).map (countSub pat)).sum = countSub pat x := by
  unfold chunkBySentences
  rw [sentLoop_countSub hws hne m (splitSentences x) [], countSub_nil, Nat.add_zero,
    ← countSub_splitsInto hws hne (splitsInto_splitSentences x)]

theorem paraLoop_countSub {pat : List Char} (hws : ∀ x ∈ pat, isPySpace x = false)
    (hne : pat ≠ []) (m : Nat) :
    ∀ (ps : List (List Char)) (cur : List Char),
      ((paraLoop m ps cur).map (countSub pat)).sum =
        (ps.map (countSub pat)).sum + countSub pat cur := by
  intro ps
  induction ps with
  | nil =>
    intro cur
    simp only [paraLoop]
    by_cases hc : cur.isEmpty = true
    · rw [if_pos hc, List.isEmpty_iff.mp hc]
      rfl
    · rw [if_neg hc]
      simp [countSub_pyStrip hws hne]
  | cons p ps' ih =>
    intro cur
    simp only [paraLoop]
    by_cases hflush : (!cur.isEmpty && cur.length + p.length + 2 > m) = true
    · rw [if_pos hflush]
      simp only [List.map_cons, List.sum_cons, ih p, countSub_pyStrip hws hne]
      omega
    · rw [if_neg hflush]
      by_cases hce : cur.isEmpty = true
      · rw [if_pos hce, ih p, List.isEmpty_iff.mp hce]
        simp only [List.map_cons, List.sum_cons, countSub_nil]
        omega
      · rw [if_neg hce, ih (cur ++ '\n' :: '\n' :: p)]
        rw [countSub_append_ws (by rfl) hws hne cur ('\n' :: p),
          countSub_cons_ws hws hne (by rfl) p]
        simp only [List.map_cons, List.sum_cons]
        omega

theorem chunkByParagraphs_countSub {pat : List Char}
    (hws : ∀ x ∈ pat, isPySpace x = false) (hne : pat ≠ [])
    (x : List Char) (m : Nat) :
    ((chunkByParagraphs x m).map (countSub pat)).sum = countSub pat x := by
  unfold chunkByParagraphs
  have hparas : ((((splitNlNl x).map pyStrip).filter fun p => !p.isEmpty).map
      (countSub pat)).sum = countSub pat x := by
    rw [sum_map_filter_of_zero _ _ _ (by
      intro p _ hp
      have : p = [] := by
        cases p with
        | nil => rfl
        | cons a t => simp at hp
      rw [this]
      rfl)]
    rw [List.map_map]
    rw [List.map_congr_left fun l _ => by
      show (countSub pat ∘ pyStrip) l = countSub pat l
      exact countSub_pyStrip hws hne l]
    exact (countSub_splitsInto hws hne (splitsInto_splitNlNl x)).symm
  show (((paraLoop m (((splitNlNl x).map pyStrip).filter fun p => !p.isEmpty) []).flatMap
      fun c => if c.length > m then chunkBySentences c m else [c]).map
        (countSub pat)).sum = countSub pat x
  rw [sum_map_flatMap]
  have hcongr : List.map
      (fun c => ((if c.length > m then chunkBySentences c m else [c]).map (countSub pat)).sum)
      (paraLoop m (((splitNlNl x).map pyStrip).filter fun p => !p.isEmpty) []) =
    List.map (countSub pat)
      (paraLoop m (((splitNlNl x).map pyStrip).filter fun p => !p.isEmpty) []) := by
    apply List.map_congr_left
    intro c _
    by_cases hlen : c.length > m
    · rw [if_pos hlen]
      exact chunkBySentences_countSub hws hne c m
    · rw [if_neg hlen]
      simp
  rw [hcongr, paraLoop_countSub hws hne m _ [], countSub_nil, Nat.add_zero]
  exact hparas

theorem processSection_countSub {pat : List Char}
    (hws : ∀ x ∈ pat, isPySpace x = false) (hne : pat ≠ []) (s : PSection) :
    ((processSection s).map (countSub pat)).sum = countSub pat s.content := by
  simp only [processSection]
  by_cases he : (pyStrip s.content).isEmpty = true
  · rw [if_pos he]
    rw [show ((([] : List (List Char)).map (countSub pat)).sum) = 0 from rfl,
      ← countSub_pyStrip hws hne s.content, List.isEmpty_iff.mp he, countSub_nil]
  · rw [if_neg he]
    by_cases h0 : s.level = 0
    · rw [if_pos h0, chunkByParagraphs_countSub hws hne, countSub_pyStrip hws hne]
    · rw [if_neg h0]
      by_cases h1 : s.level = 1
      · rw [if_pos h1, chunkByParagraphs_countSub hws hne, countSub_pyStrip hws hne]
      · rw [if_neg h1]
        by_cases h2 : s.level = 2
        · rw [if_pos h2]
          by_cases hlen : (pyStrip s.content).length ≤ 2000
          · rw [if_pos hlen]
            simp [countSub_pyStrip hws hne]
          · rw [if_neg hlen, chunkByParagraphs_countSub hws hne,
              countSub_pyStrip hws hne]
        · rw [if_neg h2]
          by_cases h3 : s.level = 3
          · rw [if_pos h3]
            by_cases hlen : (pyStrip s.content).length ≤ 1500
            · rw [if_pos hlen]
              simp [countSub_pyStrip hws hne]
            · rw [if_neg hlen, chunkByParagraphs_countSub hws hne,
                countSub_pyStrip hws hne]
          · rw [if_neg h3]
            by_cases hlen : (pyStrip s.content).length ≤ 1000
            · rw [if_pos hlen]
              simp [countSub_pyStrip hws hne]
            · rw [if_neg hlen, chunkByParagraphs_countSub hws hne,
                countSub_pyStrip hws hne]

/-- Occurrence conservation from the placeholder text to the pre-merge chunk
list: the total count over all chunks equals the count in the text. -/
theorem premerge_countSub {pat : List Char} (hws : ∀ x ∈ pat, isPySpace x = false)
    (hne : pat ≠ []) (x : List Char) :
    (((parseHeadingStructure x).flatMap processSection).map (countSub pat)).sum =
      countSub pat x := by
  have hcongr : ((parseHeadingStructure x).map
      fun s => ((processSection s).map (countSub pat)).sum) =
      ((parseHeadingStructure x).map fun s => countSub pat s.content) :=
    List.map_congr_left fun s _ => processSection_countSub hws hne s
  rw [sum_map_flatMap, hcongr, parse_countSub hws hne x]

/-! ## Character-level invariant: chunks contain only input characters,
newlines, and spaces -/

/-- A character predicate carried through the parser state. -/
def MemPred (g : Char → Prop) (st : ParseState) : Prop :=
  (∀ s ∈ st.1, ∀ ch ∈ s.content, g ch) ∧
    (∀ s, st.2 = some s → ∀ ch ∈ s.content, g ch)

theorem mem_line_nl {g : Char → Prop} (hnl : g '\n') {l : List Char}
    (hl : ∀ ch ∈ l, g ch) : ∀ ch ∈ pyStrip l ++ ['\n'], g ch := by
  intro ch hch
  rcases List.mem_append.mp hch with h | h
  · exact hl ch (mem_pyStrip h)
  · rw [List.mem_singleton] at h
    exact h ▸ hnl

theorem mem_append3 {g : Char → Prop} (hnl : g '\n') {c l : List Char}
    (hc : ∀ ch ∈ c, g ch) (hl : ∀ ch ∈ l, g ch) :
    ∀ ch ∈ c ++ pyStrip l ++ ['\n'], g ch := by
  intro ch hch
  rcases List.mem_append.mp hch with h | h
  · rcases List.mem_append.mp h with h1 | h2
    · exact hc ch h1
    · exact hl ch (mem_pyStrip h2)
  · rw [List.mem_singleton] at h
    exact h ▸ hnl

theorem parseStep_memPred {g : Char → Prop} (hnl : g '\n') {st : ParseState}
    {l : List Char} (hl : ∀ ch ∈ l, g ch) (hst : MemPred g st) :
    MemPred g (parseStep st l) := by
  obtain ⟨h1, h2⟩ := hst
  simp only [parseStep]
  by_cases he : (pyStrip l).isEmpty = true
  · rw [if_pos he]; exact ⟨h1, h2⟩
  · rw [if_neg he]
    by_cases hh : "##".toList.isPrefixOf (pyStrip l) = true
    · rw [if_pos hh]
      refine ⟨?_, ?_⟩
      · intro s hmem
        cases hcur : st.2 with
        | none => rw [hcur] at hmem; exact h1 s hmem
        | some cur =>
          rw [hcur] at hmem
          rcases List.mem_append.mp hmem with hm | hm
          · exact h1 s hm
          · rw [List.mem_singleton] at hm
            exact hm ▸ h2 cur hcur
      · intro s hsome
        obtain rfl : s = ⟨(pyStrip l).count '#',
            pyStrip ((pyStrip l).dropWhile fun c => c = '#'), pyStrip l ++ ['\n']⟩ := by
          cases st.2 <;> simpa using hsome.symm
        exact mem_line_nl hnl hl
    · rw [if_neg hh]
      cases hcur : st.2 with
      | some cur =>
        refine ⟨h1, ?_⟩
        intro s hsome
        obtain rfl : s = { cur with content := cur.content ++ pyStrip l ++ ['\n'] } := by
          simpa using hsome.symm
        exact mem_append3 hnl (h2 cur hcur) hl
      | none =>
        cases hlast : st.1.getLast? with
        | none =>
          refine ⟨?_, by simp⟩
          intro s hmem
          rw [List.mem_singleton] at hmem
          subst hmem
          exact mem_line_nl hnl hl
        | some lastSec =>
          dsimp only
          have hlastMem : lastSec ∈ st.1 := List.mem_of_mem_getLast? hlast
          by_cases hlvl : lastSec.level ≠ 0
          · rw [if_pos hlvl]
            refine ⟨?_, by simp⟩
            intro s hmem
            rcases List.mem_append.mp hmem with hm | hm
            · exact h1 s hm
            · rw [List.mem_singleton] at hm
              subst hm
              exact mem_line_nl hnl hl
          · rw [if_neg hlvl]
            refine ⟨?_, by simp⟩
            intro s hmem
            rcases List.mem_append.mp hmem with hm | hm
            · exact h1 s ((List.dropLast_sublist _).subset hm)
            · rw [List.mem_singleton] at hm
              subst hm
              exact mem_append3 hnl (h1 lastSec hlastMem) hl

theorem parse_memPred {g : Char → Prop} (hnl : g '\n') {x : List Char}
    (hx : ∀ ch ∈ x, g ch) :
    ∀ s ∈ parseHeadingStructure x, ∀ ch ∈ s.content, g ch := by
  have hinv : MemPred g ((splitLines x).foldl parseStep ([], none)) := by
    apply foldl_preserves (MemPred g) parseStep (splitLines x) ([], none)
    · exact ⟨by simp, by simp⟩
    · intro st line hline hst
      exact parseStep_memPred hnl
        (fun ch hch => hx ch ((splitsInto_splitLines x).mem_subset hline hch)) hst
  obtain ⟨h1, h2⟩ := hinv
  intro s hmem
  replace hmem : s ∈ (match ((splitLines x).foldl parseStep ([], none)).2 with
      | some cur => ((splitLines x).foldl parseStep ([], none)).1 ++ [cur]
      | none => ((splitLines x).foldl parseStep ([], none)).1) := hmem
  cases hcur : ((splitLines x).foldl parseStep ([], none)).2 with
  | none =>
    rw [hcur] at hmem
    exact h1 s hmem
  | some cur =>
    rw [hcur] at hmem
    rcases List.mem_append.mp hmem with hm | hm
    · exact h1 s hm
    · rw [List.mem_singleton] at hm
      exact hm ▸ h2 cur hcur

theorem paraLoop_mem {g : Char → Prop} (hnl : g '\n') (m : Nat) :
    ∀ (ps : List (List Char)) (cur : List Char),
      (∀ p ∈ ps, ∀ a ∈ p, g a) → (∀ a ∈ cur, g a) →
      ∀ ch ∈ paraLoop m ps cur, ∀ a ∈ ch, g a := by
  intro ps
  induction ps with
  | nil =>
    intro cur _ hcur ch hch
    simp only [paraLoop] at hch
    by_cases hc : cur.isEmpty = true
    · rw [if_pos hc] at hch; simp at hch
    · rw [if_neg hc, List.mem_singleton] at hch
      subst hch
      exact fun a ha => hcur a (mem_pyStrip ha)
  | cons p ps' ih =>
    intro cur hps hcur ch hch
    have hp : ∀ a ∈ p, g a := hps p (List.mem_cons_self p ps')
    have hps' : ∀ p' ∈ ps', ∀ a ∈ p', g a :=
      fun p' hp' => hps p' (List.mem_cons_of_mem p hp')
    simp only [paraLoop] at hch
    by_cases hflush : (!cur.isEmpty && cur.length + p.length + 2 > m) = true
    · rw [if_pos hflush] at hch
      rcases List.mem_cons.mp hch with rfl | hm
      · exact fun a ha => hcur a (mem_pyStrip ha)
      · exact ih p hps' hp ch hm
    · rw [if_neg hflush] at hch
      by_cases hce : cur.isEmpty = true
      · rw [if_pos hce] at hch
        exact ih p hps' hp ch hch
      · rw [if_neg hce] at hch
        refine ih (cur ++ '\n' :: '\n' :: p) hps' ?_ ch hch
        intro a ha
        rcases List.mem_append.mp ha with h | h
        · exact hcur a h
        · rcases List.mem_cons.mp h with rfl | h'
          · exact hnl
          · rcases List.mem_cons.mp h' with rfl | h''
            · exact hnl
            · exact hp a h''

theorem sentLoop_mem {g : Char → Prop} (hsp : g ' ') (m : Nat) :
    ∀ (ss : List (List Char)) (cur : List Char),
      (∀ s ∈ ss, ∀ a ∈ s, g a) → (∀ a ∈ cur, g a) →
      ∀ ch ∈ sentLoop m ss cur, ∀ a ∈ ch, g a := by
  intro ss
  induction ss with
  | nil =>
    intro cur _ hcur ch hch
    simp only [sentLoop] at hch
    by_cases hc : cur.isEmpty = true
    · rw [if_pos hc] at hch; simp at hch
    · rw [if_neg hc, List.mem_singleton] at hch
      subst hch
      exact fun a ha => hcur a (mem_pyStrip ha)
  | cons s ss' ih =>
    intro cur hss hcur ch hch
    have hs : ∀ a ∈ pyStrip s, g a :=
      fun a ha => hss s (List.mem_cons_self s ss') a (mem_pyStrip ha)
    have hss' : ∀ s' ∈ ss', ∀ a ∈ s', g a :=
      fun s' hs' => hss s' (List.mem_cons_of_mem s hs')
    simp only [sentLoop] at hch
    by_cases hse : (pyStrip s).isEmpty = true
    · rw [if_pos hse] at hch
      exact ih cur hss' hcur ch hch
    · rw [if_neg hse] at hch
      by_cases hflush : (!cur.isEmpty && cur.length + (pyStrip s).length + 1 > m) = true
      · rw [if_pos hflush] at hch
        rcases List.mem_cons.mp hch with rfl | hm
        · exact fun a ha => hcur a (mem_pyStrip ha)
        · exact ih (pyStrip s) hss' hs ch hm
      · rw [if_neg hflush] at hch
        by_cases hce : cur.isEmpty = true
        · rw [if_pos hce] at hch
          exact ih (pyStrip s) hss' hs ch hch
        · rw [if_neg hce] at hch
          refine ih (cur ++ ' ' :: pyStrip s) hss' ?_ ch hch
          intro a ha
          rcases List.mem_append.mp ha with h | h
          · exact hcur a h
          · rcases List.mem_cons.mp h with rfl | h'
            · exact hsp
            · exact hs a h'

theorem chunkBySentences_mem {g : Char → Prop} (hsp : g ' ') {x : List Char}
    (hx : ∀ a ∈ x, g a) (m : Nat) :
    ∀ ch ∈ chunkBySentences x m, ∀ a ∈ ch, g a := by
  intro ch hch
  refine sentLoop_mem hsp m (splitSentences x) [] ?_ (by simp) ch hch
  intro s hs a ha
  exact hx a ((splitsInto_splitSentences x).mem_subset hs ha)

theorem chunkByParagraphs_mem {g : Char → Prop} (hnl : g '\n') (hsp : g ' ')
    {x : List Char} (hx : ∀ a ∈ x, g a) (m : Nat) :
    ∀ ch ∈ chunkByParagraphs x m, ∀ a ∈ ch, g a := by
  intro ch hch
  replace hch : ch ∈ (paraLoop m (((splitNlNl x).map pyStrip).filter
      fun p => !p.isEmpty) []).flatMap
      fun c => if c.length > m then chunkBySentences c m else [c] := hch
  obtain ⟨c, hcmem, hch'⟩ := List.mem_flatMap.mp hch
  have hc : ∀ a ∈ c, g a := by
    refine paraLoop_mem hnl m _ [] ?_ (by simp) c hcmem
    intro p hp a ha
    rw [List.mem_filter] at hp
    obtain ⟨hp1, -⟩ := hp
    obtain ⟨p₀, hp₀, rfl⟩ := List.mem_map.mp hp1
    exact hx a ((splitsInto_splitNlNl x).mem_subset hp₀ (mem_pyStrip ha))
  by_cases hlen : c.length > m
  · rw [if_pos hlen] at hch'
    exact chunkBySentences_mem hsp hc m ch hch'
  · rw [if_neg hlen, List.mem_singleton] at hch'
    subst hch'
    exact hc

theorem processSection_mem {g : Char → Prop} (hnl : g '\n') (hsp : g ' ')
    {s : PSection} (hc : ∀ ch ∈ s.content, g ch) :
    ∀ ch ∈ processSection s, ∀ a ∈ ch, g a := by
  have hstrip : ∀ a ∈ pyStrip s.content, g a := fun a ha => hc a (mem_pyStrip ha)
  intro ch hch
  simp only [processSection] at hch
  by_cases he : (pyStrip s.content).isEmpty = true
  · rw [if_pos he] at hch; simp at hch
  · rw [if_neg he] at hch
    by_cases h0 : s.level = 0
    · rw [if_pos h0] at hch
      exact chunkByParagraphs_mem hnl hsp hstrip 1500 ch hch
    · rw [if_neg h0] at hch
      by_cases h1 : s.level = 1
      · rw [if_pos h1] at hch
        exact chunkByParagraphs_mem hnl hsp hstrip 2000 ch hch
      · rw [if_neg h1] at hch
        by_cases h2 : s.level = 2
        · rw [if_pos h2] at hch
          by_cases hlen : (pyStrip s.content).length ≤ 2000
          · rw [if_pos hlen, List.mem_singleton] at hch
            subst hch; exact hstrip
          · rw [if_neg hlen] at hch
            exact chunkByParagraphs_mem hnl hsp hstrip 1500 ch hch
        · rw [if_neg h2] at hch
          by_cases h3 : s.level = 3
          · rw [if_pos h3] at hch
            by_cases hlen : (pyStrip s.content).length ≤ 1500
            · rw [if_pos hlen, List.mem_singleton] at hch
              subst hch; exact hstrip
            · rw [if_neg hlen] at hch
              exact chunkByParagraphs_mem hnl hsp hstrip 1200 ch hch
          · rw [if_neg h3] at hch
            by_cases hlen : (pyStrip s.content).length ≤ 1000
            · rw [if_pos hlen, List.mem_singleton] at hch
              subst hch; exact hstrip
            · rw [if_neg hlen] at hch
              exact chunkByParagraphs_mem hnl hsp hstrip 800 ch hch

/-- Every character of every pre-merge chunk satisfies any predicate holding
for newline, space, and all characters of the placeholder text. -/
theorem premerge_mem {g : Char → Prop} (hnl : g '\n') (hsp : g ' ')
    {x : List Char} (hx : ∀ a ∈ x, g a) :
    ∀ ch ∈ (parseHeadingStructure x).flatMap processSection, ∀ a ∈ ch, g a := by
  intro ch hch
  obtain ⟨s, hs, hch'⟩ := List.mem_flatMap.mp hch
  exact processSection_mem hnl hsp (parse_memPred hnl hx s hs) ch hch'

/-! ## Characterizing the extraction on a single well-delimited block -/

theorem extractAux_skip : ∀ (junk : List Char) (n : Nat) (q : List Char),
    extractAux junk.length n (junk ++ q) = extractAux 0 n q := by
  intro junk
  induction junk with
  | nil => intro n q; rfl
  | cons c junk' ih =>
    intro n q
    rw [show (c :: junk').length = junk'.length + 1 from rfl, List.cons_append]
    rw [show extractAux (junk'.length + 1) n (c :: (junk' ++ q)) =
        extractAux junk'.length n (junk' ++ q) from rfl]
    exact ih n q

theorem extractAux_free : ∀ p : List Char, (∀ a ∈ p, ¬a = '`') →
    ∀ (n : Nat) (z : List Char),
      extractAux 0 n (p ++ z) = ((extractAux 0 n z).1, p ++ (extractAux 0 n z).2) := by
  intro p
  induction p with
  | nil => intro _ n z; simp
  | cons c p' ih =>
    intro hp n z
    have hc : ¬c = '`' := hp c (by simp)
    rw [List.cons_append]
    simp only [extractAux, tryCodeBlock_noTick hc, tryInline_noTick hc]
    rw [ih (fun a ha => hp a (List.mem_cons_of_mem c ha)) n z]
    simp

theorem takeWhile_stop {p : Char → Bool} :
    ∀ a : List Char, (∀ x ∈ a, p x = true) → ∀ {b : Char}, p b = false →
      ∀ z : List Char,
        (a ++ b :: z).takeWhile p = a ∧ (a ++ b :: z).dropWhile p = b :: z := by
  intro a
  induction a with
  | nil =>
    intro _ b hb z
    constructor
    · rw [List.nil_append, List.takeWhile_cons_of_neg (by simp [hb])]
    · rw [List.nil_append, List.dropWhile_cons_of_neg (by simp [hb])]
  | cons x a' ih =>
    intro ha b hb z
    have hx : p x = true := ha x (by simp)
    obtain ⟨ih1, ih2⟩ := ih (fun y hy => ha y (List.mem_cons_of_mem x hy)) hb z
    constructor
    · rw [List.cons_append, List.takeWhile_cons_of_pos hx, ih1]
    · rw [List.cons_append, List.dropWhile_cons_of_pos hx, ih2]

theorem tryCodeBlock_at {c q : List Char} (hc : ∀ a ∈ c, ¬a = '`') :
    tryCodeBlock ('`' :: '`' :: '`' :: (c ++ '`' :: '`' :: '`' :: q)) = some (c, q) := by
  obtain ⟨h1, h2⟩ := takeWhile_stop (p := fun a => decide (a ≠ '`')) c
    (by intro x hx; simpa using hc x hx)
    (b := '`') (by simp) ('`' :: '`' :: q)
  show (match (c ++ '`' :: '`' :: '`' :: q).dropWhile (fun a => a ≠ '`') with
    | '`' :: '`' :: '`' :: rem =>
      some ((c ++ '`' :: '`' :: '`' :: q).takeWhile (fun a => a ≠ '`'), rem)
    | _ => none) = some (c, q)
  rw [h1, h2]
  rfl

theorem extract_single (p c q : List Char) (hp : ∀ a ∈ p, ¬a = '`')
    (hc : ∀ a ∈ c, ¬a = '`') (hq : ∀ a ∈ q, ¬a = '`') :
    extractCodeBlocks (p ++ '`' :: '`' :: '`' :: (c ++ '`' :: '`' :: '`' :: q)) =
      ([⟨'`' :: '`' :: '`' :: (c ++ ['`', '`', '`']), codePh 0, "multiline".toList⟩],
        p ++ (codePh 0 ++ q)) := by
  unfold extractCodeBlocks
  rw [extractAux_free p hp 0 _]
  have hblock : extractAux 0 0 ('`' :: '`' :: '`' :: (c ++ '`' :: '`' :: '`' :: q)) =
      ([⟨'`' :: '`' :: '`' :: (c ++ ['`', '`', '`']), codePh 0, "multiline".toList⟩],
        codePh 0 ++ q) := by
    have htry := tryCodeBlock_at (q := q) hc
    simp only [extractAux, htry]
    have hskip : extractAux (5 + c.length) 1 ('`' :: '`' :: (c ++ '`' :: '`' :: '`' :: q)) =
        extractAux 0 1 q := by
      have h := extractAux_skip ('`' :: '`' :: (c ++ ['`', '`', '`'])) 1 q
      rw [show ('`' :: '`' :: (c ++ ['`', '`', '`'])).length = 5 + c.length from by
        simp only [List.length_cons, List.length_append]
        simp
        omega] at h
      rw [show ('`' :: '`' :: (c ++ ['`', '`', '`'])) ++ q =
        '`' :: '`' :: (c ++ '`' :: '`' :: '`' :: q) from by simp] at h
      exact h
    rw [hskip, extractAux_noTick 1 q hq]
    rfl
  rw [hblock]

/-! ## Restoration: `str.replace` facts -/

theorem replaceAux_zero_cons (old new : List Char) (c : Char) (rest : List Char) :
    replaceAux old new 0 (c :: rest) =
      if (old.isPrefixOf (c :: rest) && !old.isEmpty) = true then
        new ++ replaceAux old new (old.length - 1) rest
      else c :: replaceAux old new 0 rest := rfl

theorem replaceSub_of_countSub_zero {old new : List Char} :
    ∀ s : List Char, countSub old s = 0 → replaceSub old new s = s := by
  intro s
  induction s with
  | nil => intro _; rfl
  | cons c rest ih =>
    intro h
    unfold replaceSub
    rw [replaceAux_zero_cons]
    unfold countSub at h
    rw [countSubAux_zero_cons] at h
    by_cases hcond : (old.isPrefixOf (c :: rest) && !old.isEmpty) = true
    · rw [if_pos hcond] at h
      simp at h
    · rw [if_neg hcond] at h
      rw [if_neg hcond]
      rw [show replaceAux old new 0 rest = replaceSub old new rest from rfl, ih h]

theorem containsSub_self_append (pat z : List Char) :
    containsSub pat (pat ++ z) = true := by
  have hpre : pat.isPrefixOf (pat ++ z) = true :=
    List.isPrefixOf_iff_prefix.mpr (List.prefix_append pat z)
  cases hpz : pat ++ z with
  | nil =>
    have hp : pat = [] := by
      cases pat with
      | nil => rfl
      | cons a t => simp at hpz
    subst hp
    rfl
  | cons a t =>
    rw [hpz] at hpre
    simp [containsSub, hpre]

theorem containsSub_replace_of_ne {old new : List Char} :
    ∀ s : List Char, countSub old s ≠ 0 →
      containsSub new (replaceSub old new s) = true := by
  intro s
  induction s with
  | nil => intro h; exact absurd rfl h
  | cons c rest ih =>
    intro h
    unfold replaceSub
    rw [replaceAux_zero_cons]
    unfold countSub at h
    rw [countSubAux_zero_cons] at h
    by_cases hcond : (old.isPrefixOf (c :: rest) && !old.isEmpty) = true
    · rw [if_pos hcond]
      exact containsSub_self_append new _
    · rw [if_neg hcond]
      rw [if_neg hcond] at h
      have := ih h
      unfold replaceSub at this
      simp [containsSub, this]

theorem mem_replaceAux {old new : List Char} {a : Char} :
    ∀ (s : List Char) (k : Nat), a ∈ replaceAux old new k s → a ∈ s ∨ a ∈ new := by
  intro s
  induction s with
  | nil =>
    intro k h
    cases k with
    | zero => simp [replaceAux] at h
    | succ k' => simp [replaceAux] at h
  | cons c rest ih =>
    intro k h
    cases k with
    | zero =>
      rw [replaceAux_zero_cons] at h
      by_cases hcond : (old.isPrefixOf (c :: rest) && !old.isEmpty) = true
      · rw [if_pos hcond] at h
        rcases List.mem_append.mp h with h1 | h2
        · exact Or.inr h1
        · rcases ih (old.length - 1) h2 with h3 | h4
          · exact Or.inl (List.mem_cons_of_mem c h3)
          · exact Or.inr h4
      · rw [if_neg hcond] at h
        rcases List.mem_cons.mp h with rfl | h2
        · exact Or.inl (List.mem_cons_self a rest)
        · rcases ih 0 h2 with h3 | h4
          · exact Or.inl (List.mem_cons_of_mem c h3)
          · exact Or.inr h4
    | succ k' =>
      rw [show replaceAux old new (k' + 1) (c :: rest) = replaceAux old new k' rest
        from rfl] at h
      rcases ih k' h with h3 | h4
      · exact Or.inl (List.mem_cons_of_mem c h3)
      · exact Or.inr h4

theorem mem_replaceSub {old new s : List Char} {a : Char}
    (h : a ∈ replaceSub old new s) : a ∈ s ∨ a ∈ new :=
  mem_replaceAux s 0 h

theorem mem_of_containsSub {pat : List Char} :
    ∀ x : List Char, containsSub pat x = true → ∀ a ∈ pat, a ∈ x := by
  intro x
  induction x with
  | nil =>
    intro h a ha
    simp only [containsSub] at h
    have : pat = [] := by
      cases pat with
      | nil => rfl
      | cons b t => simp [List.isPrefixOf] at h
    rw [this] at ha
    simp at ha
  | cons c rest ih =>
    intro h a ha
    simp only [containsSub, Bool.or_eq_true] at h
    rcases h with h | h
    · exact (List.isPrefixOf_iff_prefix.mp h).sublist.subset ha
    · exact List.mem_cons_of_mem c (ih h a ha)

/-! ## Containment is stable under stripping when the pattern has non-blank
ends -/

theorem isPrefixOf_concat_ws {w : Char} (hw : isPySpace w = true) :
    ∀ (pat : List Char) (e : Char), pat.getLast? = some e → isPySpace e = false →
      ∀ y : List Char, pat.isPrefixOf (y ++ [w]) = pat.isPrefixOf y := by
  intro pat
  induction pat with
  | nil => intro e he _ y; simp at he
  | cons x pat' ih =>
    intro e he hews y
    cases y with
    | nil =>
      cases hp : pat' with
      | nil =>
        have hx : e = x := by
          rw [hp] at he
          simpa using he.symm
        have hxws : isPySpace x = false := by rw [← hx]; exact hews
        have hxw : (x == w) = false := by
          simp only [beq_eq_false_iff_ne, ne_eq]
          intro hcon
          rw [hcon, hw] at hxws
          exact absurd hxws (by simp)
        simp [List.isPrefixOf, hp, hxw]
      | cons b t => simp [List.isPrefixOf, hp]
    | cons b y' =>
      cases hp : pat' with
      | nil => simp [List.isPrefixOf]
      | cons b₂ t₂ =>
        have hlast : pat'.getLast? = some e := by
          rw [hp] at he ⊢
          rw [List.getLast?_cons_cons] at he
          exact he
        simp only [List.cons_append, List.isPrefixOf, List.append_eq]
        rw [← hp, ih e hlast hews y']

theorem containsSub_concat_ws {w : Char} (hw : isPySpace w = true)
    {pat : List Char} {e : Char} (hl : pat.getLast? = some e)
    (hews : isPySpace e = false) :
    ∀ y : List Char, containsSub pat (y ++ [w]) = containsSub pat y := by
  intro y
  induction y with
  | nil =>
    show containsSub pat [w] = containsSub pat []
    have hp := isPrefixOf_concat_ws hw pat e hl hews []
    rw [List.nil_append] at hp
    simp only [containsSub, hp]
    simp
  | cons c y' ih =>
    simp only [List.cons_append, containsSub, List.append_eq]
    rw [ih]
    have hp := isPrefixOf_concat_ws hw pat e hl hews (c :: y')
    rw [List.cons_append] at hp
    rw [hp]

theorem containsSub_ws_suffix {pat : List Char} {e : Char}
    (hl : pat.getLast? = some e) (hews : isPySpace e = false) :
    ∀ suf : List Char, (∀ x ∈ suf, isPySpace x = true) →
      ∀ y : List Char, containsSub pat (y ++ suf) = containsSub pat y := by
  intro suf
  induction suf with
  | nil => intro _ y; simp
  | cons w suf' ih =>
    intro hsuf y
    rw [show y ++ w :: suf' = (y ++ [w]) ++ suf' from by simp,
      ih (fun x hx => hsuf x (List.mem_cons_of_mem w hx)) (y ++ [w]),
      containsSub_concat_ws (hsuf w (List.mem_cons_self w suf')) hl hews y]

theorem containsSub_ws_head {pat : List Char} {h' : Char}
    (hh : pat.head? = some h') (hws : isPySpace h' = false) :
    ∀ pre : List Char, (∀ x ∈ pre, isPySpace x = true) →
      ∀ z : List Char, containsSub pat (pre ++ z) = containsSub pat z := by
  intro pre
  induction pre with
  | nil => intro _ z; rfl
  | cons w pre' ih =>
    intro hpre z
    obtain ⟨pat', hpat⟩ : ∃ pat', pat = h' :: pat' := by
      cases pat with
      | nil => simp at hh
      | cons a t =>
        refine ⟨t, ?_⟩
        simp only [List.head?_cons, Option.some.injEq] at hh
        rw [hh]
    have hpref : pat.isPrefixOf (w :: (pre' ++ z)) = false := by
      rw [hpat]
      simp only [List.isPrefixOf]
      have : (h' == w) = false := by
        simp only [beq_eq_false_iff_ne, ne_eq]
        intro hcon
        rw [hcon, hpre w (List.mem_cons_self w pre')] at hws
        exact absurd hws (by simp)
      rw [this]
      rfl
    simp only [List.cons_append, containsSub, List.append_eq, hpref, Bool.false_or]
    exact ih (fun x hx => hpre x (List.mem_cons_of_mem w hx)) z

theorem containsSub_pyStrip_iff {pat : List Char} {h' e : Char}
    (hh : pat.head? = some h') (hhw : isPySpace h' = false)
    (hl : pat.getLast? = some e) (hew : isPySpace e = false) (y : List Char) :
    containsSub pat (pyStrip y) = containsSub pat y := by
  obtain ⟨pre, suf, hpre, hsuf, hdec⟩ := pyStrip_decomp y
  conv_rhs => rw [hdec]
  rw [List.append_assoc, containsSub_ws_head hh hhw pre hpre,
    containsSub_ws_suffix hl hew suf hsuf]

theorem countP_le_sum_map {α : Type} (f : α → Nat) :
    ∀ l : List α, l.countP (fun x => decide (f x ≠ 0)) ≤ (l.map f).sum := by
  intro l
  induction l with
  | nil => simp
  | cons a t ih =>
    rw [List.countP_cons]
    simp only [List.map_cons, List.sum_cons]
    have hle : (if (decide (f a ≠ 0)) = true then 1 else 0) ≤ f a := by
      by_cases h : f a = 0
      · simp [h]
      · have h1 := Nat.one_le_iff_ne_zero.mpr h
        split <;> omega
    omega

/-! ## C2: atomicity of restored code blocks -/

/-- Atomicity engine: if the placeholder `ph` occurs exactly once (as counted
by the greedy scan) in the backtick-free placeholder text `x`, and the block
`B` to be restored starts and ends with a backtick, then after the heading
parse, section processing, restoration and size validation, at most one chunk
contains `B`, and every chunk containing any backtick contains `B` in full. -/
theorem restore_atomicity {B ph : List Char} (hBh : B.head? = some '`')
    (hBl : B.getLast? = some '`')
    (hpw : ∀ a ∈ ph, isPySpace a = false) (hpn : ¬ph = [])
    (x : List Char) (hx : ∀ a ∈ x, ¬a = '`') (hone : countSub ph x = 1) :
    (validateChunkSizes (((parseHeadingStructure x).flatMap processSection).map
        (replaceSub ph B))).countP (fun ch => containsSub B ch) ≤ 1 ∧
      ∀ ch ∈ validateChunkSizes (((parseHeadingStructure x).flatMap
          processSection).map (replaceSub ph B)),
        '`' ∈ ch → containsSub B ch = true := by
  have hbtB : ('`' : Char) ∈ B := by
    cases hB : B with
    | nil => rw [hB] at hBh; simp at hBh
    | cons a t =>
      rw [hB] at hBh
      simp only [List.head?_cons, Option.some.injEq] at hBh
      rw [← hBh]
      exact List.mem_cons_self a t
  have hfree : ∀ ch0 ∈ (parseHeadingStructure x).flatMap processSection,
      ∀ a ∈ ch0, ¬a = '`' := premerge_mem (by decide) (by decide) hx
  have hsum : (((parseHeadingStructure x).flatMap processSection).map
      (countSub ph)).sum = 1 := by
    rw [premerge_countSub hpw hpn x]
    exact hone
  have hkey : ∀ ch0 ∈ (parseHeadingStructure x).flatMap processSection,
      containsSub B (pyStrip (replaceSub ph B ch0)) = true →
        ¬countSub ph ch0 = 0 := by
    intro ch0 hch0 hcont hzero
    rw [replaceSub_of_countSub_zero ch0 hzero,
      containsSub_pyStrip_iff hBh (by decide) hBl (by decide) ch0] at hcont
    exact hfree ch0 hch0 '`' (mem_of_containsSub ch0 hcont '`' hbtB) rfl
  constructor
  · rw [validateChunkSizes_eq_filter, List.map_map]
    refine le_trans ((List.filter_sublist _).countP_le
      (fun ch => containsSub B ch)) ?_
    rw [List.countP_map]
    refine le_trans (List.countP_mono_left ?_)
      (le_trans (countP_le_sum_map (countSub ph)
        ((parseHeadingStructure x).flatMap processSection)) (le_of_eq hsum))
    intro ch0 hch0 hcd
    exact decide_eq_true (hkey ch0 hch0 hcd)
  · rw [validateChunkSizes_eq_filter, List.map_map]
    intro ch hch hbt
    obtain ⟨hch1, -⟩ := List.mem_filter.mp hch
    obtain ⟨ch0, hch0, heq⟩ := List.mem_map.mp hch1
    by_cases hz : countSub ph ch0 = 0
    · exfalso
      have hfix : replaceSub ph B ch0 = ch0 := replaceSub_of_countSub_zero ch0 hz
      have h2 : pyStrip ch0 = ch := by
        rw [← heq]
        show pyStrip ch0 = pyStrip (replaceSub ph B ch0)
        rw [hfix]
      rw [← h2] at hbt
      exact hfree ch0 hch0 '`' (mem_pyStrip hbt) rfl
    · rw [← heq]
      show containsSub B (pyStrip (replaceSub ph B ch0)) = true
      rw [containsSub_pyStrip_iff hBh (by decide) hBl (by decide)]
      exact containsSub_replace_of_ne ch0 hz

/-- **C2 (amended).** Code-span atomicity, corrected: for an input
`p ++ "```" ++ c ++ "```" ++ q` whose context `p`, `q` and code body `c` are
backtick-free and whose placeholder text contains exactly one occurrence of
`__CODE_BLOCK_0__`, the list returned by `chunk_text` contains AT MOST one
chunk in which the fenced block appears in full, and the block is never split:
any returned chunk containing so much as one backtick contains the whole block
with both delimiters.  (The original claim's "exactly one" is false: the block
can be dropped entirely by the 50-character floor — see the counterexample.) -/
theorem C2_block_atomicity (p c q : List Char)
    (hp : ∀ a ∈ p, ¬a = '`') (hc : ∀ a ∈ c, ¬a = '`') (hq : ∀ a ∈ q, ¬a = '`')
    (hone : countSub (codePh 0) (p ++ (codePh 0 ++ q)) = 1) :
    (chunkText (p ++ '`' :: '`' :: '`' :: (c ++ '`' :: '`' :: '`' :: q))).countP
        (fun ch => containsSub ('`' :: '`' :: '`' :: (c ++ ['`', '`', '`'])) ch) ≤ 1 ∧
      ∀ ch ∈ chunkText (p ++ '`' :: '`' :: '`' :: (c ++ '`' :: '`' :: '`' :: q)),
        '`' ∈ ch →
          containsSub ('`' :: '`' :: '`' :: (c ++ ['`', '`', '`'])) ch = true := by
  have hbt : ('`' : Char) ∈ p ++ '`' :: '`' :: '`' :: (c ++ '`' :: '`' :: '`' :: q) := by
    simp
  have hne : ¬(pyStrip
      (p ++ '`' :: '`' :: '`' :: (c ++ '`' :: '`' :: '`' :: q))).isEmpty = true := by
    intro hemp
    have h2 := allws_of_pyStrip_eq_nil (List.isEmpty_iff.mp hemp) '`' hbt
    exact absurd h2 (by decide)
  have hform : chunkText (p ++ '`' :: '`' :: '`' :: (c ++ '`' :: '`' :: '`' :: q)) =
      validateChunkSizes (((parseHeadingStructure (p ++ (codePh 0 ++ q))).flatMap
        processSection).map
          (replaceSub (codePh 0) ('`' :: '`' :: '`' :: (c ++ ['`', '`', '`'])))) := by
    rw [chunkText_eq_validate _ hne]
    rw [show removeCodeBlocks (p ++ '`' :: '`' :: '`' :: (c ++ '`' :: '`' :: '`' :: q)) =
      ([⟨'`' :: '`' :: '`' :: (c ++ ['`', '`', '`']), codePh 0, "multiline".toList⟩],
        p ++ (codePh 0 ++ q)) from extract_single p c q hp hc hq]
    rfl
  rw [hform]
  refine restore_atomicity ?_ ?_ (by decide) (by decide)
    (p ++ (codePh 0 ++ q)) ?_ hone
  · rfl
  · show (('`' :: '`' :: '`' :: c) ++ ['`', '`', '`']).getLast? = some '`'
    exact (List.getLast?_append_of_ne_nil _ (by decide)).trans rfl
  · intro a ha
    rcases List.mem_append.mp ha with h1 | h2
    · exact hp a h1
    · rcases List.mem_append.mp h2 with h3 | h4
      · intro hcon
        rw [hcon] at h3
        exact absurd h3 (by decide)
      · exact hq a h4

theorem C2_block_atomicity_witness :
    (chunkText ("A short introduction mentioning the function. ".toList ++
        '`' :: '`' :: '`' :: ("wp_query(args)".toList ++ '`' :: '`' :: '`' ::
          " The function returns the filtered list of posts.".toList))).countP
        (fun ch => containsSub ('`' :: '`' :: '`' ::
          ("wp_query(args)".toList ++ ['`', '`', '`'])) ch) ≤ 1 ∧
      ∀ ch ∈ chunkText ("A short introduction mentioning the function. ".toList ++
          '`' :: '`' :: '`' :: ("wp_query(args)".toList ++ '`' :: '`' :: '`' ::
            " The function returns the filtered list of posts.".toList)),
        '`' ∈ ch → containsSub ('`' :: '`' :: '`' ::
          ("wp_query(args)".toList ++ ['`', '`', '`'])) ch = true :=
  C2_block_atomicity ("A short introduction mentioning the function. ".toList)
    ("wp_query(args)".toList)
    (" The function returns the filtered list of posts.".toList)
    (by decide) (by decide) (by decide) (by decide)

/-- **C2 (counterexample).** The input consists of one fenced code block and
nothing else, so it "contains a triple-backtick-delimited code block", yet
`chunk_text` returns NO chunk at all (the restored chunk is 9 characters,
below the 50-character floor, and is discarded): there is no chunk in which
the block appears, refuting "exactly one". -/
theorem C2_counterexample :
    chunkText ("```abc```".toList) = [] ∧
      (chunkText ("```abc```".toList)).countP
        (fun ch => containsSub ("```abc```".toList) ch) = 0 := by
  decide
